import Mathlib

/-!
# Verification of the portfolio analytics core

Shallow embedding of the analytics core of the dashboard (source:
`src/App.tsx` and `src/lib/portfolio.ts`) and proofs about it.

Modelling conventions:
* JS `number` is modelled as `ℚ` (the code under verification only performs
  field operations, `Math.floor/ceil/round/max/min` and comparisons on the
  paths the claims are about); integer share counts are modelled as `ℤ`.
* JS `NaN`/missing values are modelled as `Option ℚ` (`none` = `NaN`/absent);
  the code always guards number use with `Number.isFinite`, which maps to
  `Option.isSome`, so no other NaN propagation arises on the embedded paths.
* `Array.prototype.sort` is stable (ES2019); it is embedded as
  `List.mergeSort`, which is stable in the same sense.
* `a.localeCompare(b)` on the ASCII date keys / tickers used by the app is
  embedded as the standard linear order on `String`.
-/

/-! ## Calendar Builder (`unionSortedDates`, App.tsx lines 188-192) -/

/-- One `Set.add`: JS `Set` keeps first insertion, ignores duplicates. -/
def jsSetAdd (s : List String) (d : String) : List String :=
  if d ∈ s then s else s ++ [d]

/-- Lexicographic comparison of character lists; this is
`a.localeCompare(b) <= 0` for the ASCII keys the app uses. -/
def charListLe : List Char → List Char → Bool
  | [], _ => true
  | _ :: _, [] => false
  | a :: as, b :: bs => if a < b then true else if b < a then false else charListLe as bs

/-- Boolean order used to embed `(a, b) => a.localeCompare(b)`. -/
def stringLe (a b : String) : Bool := charListLe a.data b.data

/-- `unionSortedDates(series)`: insert every date of every series into a set,
then sort with `localeCompare`.  (The JS `typeof d === "string"` guard is
vacuous here since the embedding is typed; `x.dates ?? []` likewise.) -/
def unionSortedDates (series : List (List String)) : List String :=
  ((series.foldl (fun s x => x.foldl jsSetAdd s) []).mergeSort stringLe)

/-! ## Forward-Fill Aligner (`forwardFillSeries`, App.tsx lines 194-204) -/

/-- The loop of `forwardFillSeries`: walk the calendar keeping the last known
value (`last`), updating it whenever the map has a finite value for the
current date, and emitting the last known value (`NaN` ≙ `none` if none yet).
`dateToValue.get(d)` with a missing key or a non-finite stored value both
embed to `none`. -/
def forwardFillGo (dateToValue : String → Option ℚ) :
    Option ℚ → List String → List (Option ℚ)
  | _, [] => []
  | last, d :: ds =>
    let v := dateToValue d
    let last' := if v.isSome then v else last
    last' :: forwardFillGo dateToValue last' ds

/-- `forwardFillSeries(calendar, dateToValue)`. -/
def forwardFillSeries (calendar : List String) (dateToValue : String → Option ℚ) :
    List (Option ℚ) :=
  forwardFillGo dateToValue none calendar

/-- The observation map obtained by feeding an aligned series back in:
a JS `Map` built from the pairs `(calendar[i], out[i])`, keeping only finite
values (later entries would win, as in `Map.set`). -/
def feedBack (calendar : List String) (vals : List (Option ℚ)) :
    String → Option ℚ :=
  fun d => ((calendar.zip vals).reverse.find? (fun p => p.1 = d)).bind (fun p => p.2)

/-- "Last known value" of an observation map over a prefix of the calendar,
starting from `last`; mirrors the accumulator of `forwardFillGo`. -/
def lastKnownFrom (dateToValue : String → Option ℚ) (last : Option ℚ)
    (l : List String) : Option ℚ :=
  l.foldl (fun acc d => if (dateToValue d).isSome then dateToValue d else acc) last

/-! ## Range Windower (`indicesForRange`, App.tsx lines 62-88)

`new Date(d).getTime()` and the calendar arithmetic of `rangeStart` are
platform `Date` functionality; they are abstracted as parameters
(`parse : String → Option ℤ`, with `none` for an unparseable date, i.e. a
`NaN` timestamp, and `rangeStartF : RangeKey → ℤ → Option ℤ`, with `none`
exactly when `rangeStart` returns `null`, i.e. for `ALL`).  The claims about
this component are insensitive to the actual timestamp values. -/

inductive RangeKey where
  | d1 | d5 | m6 | ytd | y1 | y5 | all
deriving DecidableEq, Repr

/-- `key === "1D" ? 2 : key === "5D" ? 6 : dates.length` (ordinal fallback). -/
def ordinalFallbackK (key : RangeKey) (len : ℕ) : ℕ :=
  match key with
  | .d1 => 2
  | .d5 => 6
  | _ => len

/-- `key === "1D" ? 2 : key === "5D" ? 6 : 12` (minimum-viable-window size). -/
def minViableK (key : RangeKey) : ℕ :=
  match key with
  | .d1 => 2
  | .d5 => 6
  | _ => 12

/-- `Array.from({length: n}, (_, k) => len - n + k)`: the last `n` indices. -/
def lastIndices (len n : ℕ) : List ℕ :=
  (List.range n).map (fun k => len - n + k)

/-- `dates.map((d, i) => ({i, t: new Date(d).getTime()})).filter(isFinite)`. -/
def tsOf (parse : String → Option ℤ) (dates : List String) : List (ℕ × ℤ) :=
  dates.enum.filterMap (fun p => (parse p.2).map (fun t => (p.1, t)))

/-- Comparator of `ts.sort((a, b) => a.t - b.t)`. -/
def tsLe (a b : ℕ × ℤ) : Bool := decide (a.2 ≤ b.2)

/-- The dated selection: sort the parseable entries by timestamp, anchor at
the newest, and keep (in time order, since the JS sort mutated `ts` in place)
the indices with timestamp at or after the window start — all of them when
`rangeStart` is `null`. -/
def datedSelection (parse : String → Option ℤ) (rangeStartF : RangeKey → ℤ → Option ℤ)
    (dates : List String) (key : RangeKey) : List ℕ :=
  let sorted := (tsOf parse dates).mergeSort tsLe
  let endT := (sorted.getLastD (0, 0)).2
  match rangeStartF key endT with
  | some s => (sorted.filter (fun x => decide (s ≤ x.2))).map (fun x => x.1)
  | none => sorted.map (fun x => x.1)

/-- `indicesForRange(dates, key)` (App.tsx lines 62-88). -/
def indicesForRange (parse : String → Option ℤ) (rangeStartF : RangeKey → ℤ → Option ℤ)
    (dates : List String) (key : RangeKey) : List ℕ :=
  if dates = [] then []
  else if tsOf parse dates = [] then
    lastIndices dates.length (min dates.length (ordinalFallbackK key dates.length))
  else
    let idx := datedSelection parse rangeStartF dates key
    if idx.length < 2 ∧ 2 ≤ dates.length then
      lastIndices dates.length (min dates.length (minViableK key))
    else idx

/-! ## Weight/Share Reconciler (App.tsx lines 1865-1914, 2042-2118)

Share counts are integers (`ℤ`); the raw numbers arriving from input fields
are `ℚ`.  `Number.isFinite(x.shares)` is identically true in this model, so
the `Number.isFinite(x.shares) ? x.shares : 0` guards collapse to `x.shares`.
The proportional-apportionment arithmetic (`exact`, `frac`) is carried out in
exact rational arithmetic. -/

structure Holding where
  ticker : String
  shares : ℤ
deriving DecidableEq, Repr

/-- `prev.reduce((s, x) => s + x.shares, 0)`. -/
def sumShares (prev : List Holding) : ℤ :=
  (prev.map (fun h => h.shares)).sum

/-- JS `Math.round` (round half toward `+∞`). -/
def jsRound (q : ℚ) : ℤ := ⌊q + 1 / 2⌋

/-- `setShares(ticker, shares)` (App.tsx lines 2042-2045): clamp the rounded
input at 0 and replace that ticker's shares; no rebalancing. -/
def setShares (prev : List Holding) (ticker : String) (shares : ℚ) : List Holding :=
  let v : ℤ := max 0 (jsRound shares)
  prev.map (fun x => if x.ticker = ticker then { x with shares := v } else x)

/-- Entry of the `ratios` / `raw` arrays: a ticker with the floor and the
fractional part of its exact proportional share. -/
structure ShareRem where
  ticker : String
  floorPart : ℤ
  frac : ℚ
deriving DecidableEq, Repr

/-- Build one `ratios`/`raw` entry: `exact = (shares / denom) * total`,
`floor = Math.floor(exact)`, `frac = exact - floor`. -/
def shareRemOf (denom total : ℤ) (x : Holding) : ShareRem :=
  let exact : ℚ := ((x.shares : ℚ) / (denom : ℚ)) * (total : ℚ)
  ⟨x.ticker, ⌊exact⌋, exact - ⌊exact⌋⟩

/-- One pass of the remainder-distribution loop: walk the counts, giving one
unit to each position while any remainder is left; return the new counts and
the remainder still undistributed at the end of the pass. -/
def cyclePass : List ℕ → ℕ → List ℕ × ℕ
  | [], r => ([], r)
  | c :: cs, 0 => (c :: cs, 0)
  | c :: cs, r + 1 =>
    let p := cyclePass cs r
    ((c + 1) :: p.1, p.2)

/-- The remainder-distribution loop of the reconciler
(`for (let i = 0; i < n && rem > 0; i++) { ...; if (i === n-1 && rem > 0) i = -1 }`):
repeat passes over the counts until the remainder is exhausted (the loop
exits immediately when the array is empty).  A pass over a nonempty list
consumes at least one unit, so its leftover is at most `r`; the `min` makes
that bound available to the termination checker without changing the
value. -/
def cycleDistrib (counts : List ℕ) (rem : ℕ) : List ℕ :=
  match rem with
  | 0 => counts
  | r + 1 =>
    if counts = [] then counts
    else
      cycleDistrib (cyclePass counts (r + 1)).1 (min (cyclePass counts (r + 1)).2 r)
termination_by rem
decreasing_by omega

/-- Boolean comparator of the percent-edit sort
`raw.sort((a, b) => b.frac - a.frac)`: `a` may precede `b` iff the comparator
is `<= 0` on `(a, b)`, i.e. `b.frac <= a.frac`.  `Array.prototype.sort` is
stable, as is `List.mergeSort`. -/
def pctLe (a b : ShareRem) : Bool := decide (b.frac ≤ a.frac)

/-- Boolean comparator of the total-rescale sort
`ratios.sort((a, b) => (b.frac - a.frac) || a.ticker.localeCompare(b.ticker))`:
fraction descending, ties by ascending ticker name. -/
def totalLe (a b : ShareRem) : Bool :=
  if a.frac = b.frac then stringLe a.ticker b.ticker else decide (b.frac ≤ a.frac)

/-- Comparator of `prev.slice().sort((a, b) => a.ticker.localeCompare(b.ticker))`. -/
def tickerLe (a b : Holding) : Bool := stringLe a.ticker b.ticker

/-- `alloc.find(z => z.ticker === x.ticker)` (first match). -/
def allocFind (alloc : List (String × ℤ)) (t : String) : Option ℤ :=
  (alloc.find? (fun p => p.1 = t)).map (fun p => p.2)

/-- Largest-remainder allocation over an already-sorted `ratios`/`raw` list:
sum the floors, distribute `total - sum(floors)` leftover units one-by-one in
list order (wrapping around, as the loop does), and pair each ticker with
`floor + extras`.  (The JS code accumulates `extras`/`finalShares` in `Map`s
keyed by ticker; holdings are unique by ticker, so per-position counters are
the same thing.) -/
def remainderAlloc (total : ℤ) (sorted : List ShareRem) : List (String × ℤ) :=
  let used : ℤ := (sorted.map (fun r => r.floorPart)).sum
  let rem : ℤ := total - used
  let counts := cycleDistrib (List.replicate sorted.length 0) rem.toNat
  (sorted.zip counts).map (fun p => (p.1.ticker, p.1.floorPart + (p.2 : ℤ)))

/-- Even-split allocation used when the current total is zero:
`base = Math.floor(total / n)` to everyone (in ascending-ticker order), plus
one extra unit to the first `total - base * n` tickers (a single pass of the
distribution loop). -/
def evenAlloc (total : ℤ) (ordered : List Holding) : List (String × ℤ) :=
  let base : ℤ := ⌊(total : ℚ) / (ordered.length : ℚ)⌋
  let rem : ℤ := total - base * ordered.length
  let counts := (cyclePass (List.replicate ordered.length 0) rem.toNat).1
  (ordered.zip counts).map (fun p => (p.1.ticker, base + (p.2 : ℤ)))

/-- `setTotalSharesAndRescale(targetTotal)` (App.tsx lines 1865-1914). -/
def setTotalSharesAndRescale (prev : List Holding) (targetTotal : ℚ) : List Holding :=
  let T : ℤ := max 0 (jsRound targetTotal)
  if prev = [] then prev
  else
    let curTotal := sumShares prev
    if curTotal ≤ 0 then
      let alloc := evenAlloc T (prev.mergeSort tickerLe)
      prev.map (fun x => { x with shares := (allocFind alloc x.ticker).getD 0 })
    else
      let ratios := prev.map (shareRemOf curTotal T)
      let alloc := remainderAlloc T (ratios.mergeSort totalLe)
      prev.map (fun x => { x with shares := (allocFind alloc x.ticker).getD 0 })

/-- `setPctAndRebalance(ticker, pctTarget)` (App.tsx lines 2047-2118),
parametrised by the sort of the `raw` array so that the sort order — the only
point where the snapshots of this logic differ — can be compared. -/
def pctRebalanceAux (sortRaw : List ShareRem → List ShareRem)
    (prev : List Holding) (ticker : String) (pctTarget : ℚ) : List Holding :=
  if prev = [] then prev
  else
    let total : ℤ := max 1 (sumShares prev)
    let desired : ℤ := min ⌈min 100 (max 0 pctTarget) / 100 * (total : ℚ)⌉ total
    let others := prev.filter (fun x => x.ticker ≠ ticker)
    let remaining := total - desired
    if others = [] then
      prev.map (fun x => if x.ticker = ticker then { x with shares := desired } else x)
    else
      let otherTotal := sumShares others
      let alloc :=
        if otherTotal ≤ 0 then evenAlloc remaining (others.mergeSort tickerLe)
        else remainderAlloc remaining (sortRaw (others.map (shareRemOf otherTotal remaining)))
      prev.map (fun x =>
        if x.ticker = ticker then { x with shares := desired }
        else
          match allocFind alloc x.ticker with
          | some s => { x with shares := s }
          | none => x)

/-- `setPctAndRebalance` as in the source: stable sort by fraction descending. -/
def setPctAndRebalance (prev : List Holding) (ticker : String) (pctTarget : ℚ) :
    List Holding :=
  pctRebalanceAux (fun raw => raw.mergeSort pctLe) prev ticker pctTarget

/-- The percent-edit rebalancing as described by the claim: leftover units go
to the largest fractional remainders with ties broken by ascending ticker
name.  (Definition follows the claim's words, for comparison with the code.) -/
def setPctAndRebalanceNameTie (prev : List Holding) (ticker : String) (pctTarget : ℚ) :
    List Holding :=
  pctRebalanceAux (fun raw => raw.mergeSort totalLe) prev ticker pctTarget

/-- Comparator on position-tagged `raw` entries: larger fractional remainder
first, ties between equal remainders broken by original array position. -/
def pctPosLe (p q : ℕ × ShareRem) : Bool :=
  decide (q.2.frac < p.2.frac) || (decide (p.2.frac = q.2.frac) && decide (p.1 ≤ q.1))

/-- The percent-edit rebalancing with the stable order made explicit:
sort the position-tagged entries by fraction descending, ties by position.
(Definition follows the amended claim's words.) -/
def setPctAndRebalancePosTie (prev : List Holding) (ticker : String) (pctTarget : ℚ) :
    List Holding :=
  pctRebalanceAux (fun raw => (raw.enum.mergeSort pctPosLe).map (fun p => p.2))
    prev ticker pctTarget

/-! ## Portfolio Index Builder (the `portfolio` `useMemo`, App.tsx lines 659-682)

The memo receives the per-ticker normalized windowed series (`series`, each a
ticker with its `idx` array, `NaN` ≙ `none`), the weight list, and the window
length `n = datesR.length`.  The `!data` early-`null` is caller state (data
not yet loaded) and is outside the computation being embedded. -/

/-- ASCII upper-casing, `t.toUpperCase()` for the tickers the app uses. -/
def jsCharUpper (c : Char) : Char :=
  if 'a' ≤ c ∧ c ≤ 'z' then Char.ofNat (c.toNat - 32) else c

/-- `s.toUpperCase()`. -/
def jsToUpper (s : String) : String := ⟨s.data.map jsCharUpper⟩

/-- `new Map(weights.map(x => [x.ticker.toUpperCase(), x.w])).get(k)`:
on duplicate keys `Map` keeps the last entry. -/
def wmapGet (weights : List (String × ℚ)) (k : String) : Option ℚ :=
  ((weights.map (fun x => (jsToUpper x.1, x.2))).reverse.find? (fun p => p.1 = k)).map
    (fun p => p.2)

/-- `wSum`: the summed raw weights of the tickers present in the loaded
dataset (`wmap.get(s.t.toUpperCase()) ?? 0` accumulated over `series`). -/
def presentWeightSum (weights : List (String × ℚ))
    (series : List (String × List (Option ℚ))) : ℚ :=
  (series.map (fun s => (wmapGet weights (jsToUpper s.1)).getD 0)).sum

/-- The `portfolio` memo: `null` if no series or if the present-ticker weight
sum is not positive (`Number.isFinite(wSum)` is identically true over `ℚ`);
otherwise the length-`n` array with
`out[i] = Σ_s (w_s / wSum) * (isFinite(s.idx[i]) ? s.idx[i] : 0)`
(the nested accumulation loops written as a sum; an out-of-range `s.idx[i]`
is `undefined`, hence also a `0` contribution). -/
def portfolioIndex (weights : List (String × ℚ))
    (series : List (String × List (Option ℚ))) (n : ℕ) : Option (List ℚ) :=
  if series = [] then none
  else
    let wSum := presentWeightSum weights series
    if wSum ≤ 0 then none
    else
      some ((List.range n).map (fun i =>
        (series.map (fun s =>
          (wmapGet weights (jsToUpper s.1)).getD 0 / wSum * ((s.2.getD i none).getD 0))).sum))

/-! ## KPI Calculator (`kpisFromIndex`, App.tsx lines 235-258)

`lib/portfolio.ts` lines 84-107 contain the identical algorithm over
`(date, value)` pairs; the App.tsx variant (parallel `series`/`dates`
arrays), which the in-app KPI path uses, is the one embedded.
`new Date(...).getTime()` and `Math.pow` are abstracted as parameters
`dateMs` and `powf`; the claims about this component do not depend on them. -/

structure KPI where
  totalReturn : ℚ
  cagr : ℚ
  maxDrawdown : ℚ
deriving DecidableEq, Repr

/-- One iteration of the running-peak loop: raise the peak if the value
exceeds it, compute the drawdown at this point (`0` unless the peak is
positive), and keep the most negative drawdown seen. -/
def ddStep (st : ℚ × ℚ) (v : ℚ) : ℚ × ℚ :=
  let peak := if v > st.1 then v else st.1
  let dd := if peak > 0 then v / peak - 1 else 0
  (peak, if dd < st.2 then dd else st.2)

/-- `kpisFromIndex(series, dates)` (App.tsx lines 235-258); `365.25 = 1461/4`. -/
def kpisFromIndex (dateMs : String → ℚ) (powf : ℚ → ℚ → ℚ)
    (series : List ℚ) (dates : List String) : KPI :=
  if series.length < 2 ∨ dates.length < 2 then ⟨0, 0, 0⟩
  else
    let v0 := series.getD 0 0
    let v1 := series.getD (series.length - 1) 0
    let totalReturn := if v0 > 0 then v1 / v0 - 1 else 0
    let d0 := dateMs (dates.getD 0 "")
    let d1 := dateMs (dates.getD (dates.length - 1) "")
    let years := max ((d1 - d0) / (1000 * 60 * 60 * 24 * (1461 / 4))) (4 / 1461)
    let cagr := powf (1 + totalReturn) (1 / years) - 1
    ⟨totalReturn, cagr, (series.foldl ddStep (v0, 0)).2⟩

/-- "Some point of the series lies strictly below its running peak", the
running peak being seeded with `p` and raised as the list is traversed. -/
def dipsBelowPeak : ℚ → List ℚ → Prop
  | _, [] => False
  | p, x :: xs => x < p ∨ dipsBelowPeak (max p x) xs

/-! ## Risk-Bucket Matcher: label normalization (`normalizeBucket`,
App.tsx lines 1025-1036)

`String.prototype.toLowerCase` / `trim` / `startsWith` / `includes` are
embedded structurally over the character data (ASCII case mapping, which is
what the app's labels use). -/

/-- ASCII lower-casing of one character. -/
def jsCharLower (c : Char) : Char :=
  if 'A' ≤ c ∧ c ≤ 'Z' then Char.ofNat (c.toNat + 32) else c

/-- `s.toLowerCase()`. -/
def jsToLower (s : String) : String := ⟨s.data.map jsCharLower⟩

/-- `s.trim()`: strip whitespace from both ends. -/
def jsTrim (s : String) : String :=
  ⟨((s.data.dropWhile Char.isWhitespace).reverse.dropWhile Char.isWhitespace).reverse⟩

/-- `s.startsWith(pre)`. -/
def jsStartsWith (s pre : String) : Bool := pre.data.isPrefixOf s.data

/-- Is `needle` a contiguous substring of `hay`? -/
def containsSub : List Char → List Char → Bool
  | hay, needle =>
    needle.isPrefixOf hay ||
      match hay with
      | [] => false
      | _ :: t => containsSub t needle

/-- `s.includes(sub)`. -/
def jsIncludes (s sub : String) : Bool := containsSub s.data sub.data

/-- `normalizeBucket(b)` (App.tsx lines 1025-1036): lower-case and trim the
label (`String(b ?? "")` for a missing one), then match by prefix, then by
substring; a label that matches nothing falls through *unchanged*. -/
def normalizeBucket (b : Option String) : String :=
  let x := jsToLower (jsTrim (b.getD ""))
  if x = "" then "unknown"
  else if jsStartsWith x "low" then "low"
  else if jsStartsWith x "med" then "medium"
  else if jsStartsWith x "high" then "high"
  else if jsIncludes x "low" then "low"
  else if jsIncludes x "medium" || jsIncludes x "mid" then "medium"
  else if jsIncludes x "high" then "high"
  else if jsIncludes x "unknown" then "unknown"
  else x

/-- The condition under which some branch of `normalizeBucket`'s cascade
fires (so the label does not fall through unchanged). -/
def bucketMatched (x : String) : Prop :=
  x = "" ∨ jsStartsWith x "low" = true ∨ jsStartsWith x "med" = true ∨
    jsStartsWith x "high" = true ∨ jsIncludes x "low" = true ∨
    jsIncludes x "medium" = true ∨ jsIncludes x "mid" = true ∨
    jsIncludes x "high" = true ∨ jsIncludes x "unknown" = true

instance (x : String) : Decidable (bucketMatched x) := by
  unfold bucketMatched
  infer_instance

/-! ## General helper lemmas -/

theorem mergeSort_pair {α : Type} (le : α → α → Bool) (a b : α) :
    [a, b].mergeSort le = if le a b then [a, b] else [b, a] := by
  rw [List.mergeSort]
  simp [List.splitInTwo, List.splitAt, List.splitAt.go, List.merge]

theorem cyclePass_snd_le : ∀ (l : List ℕ) (r : ℕ), (cyclePass l r).2 ≤ r
  | [], _ => Nat.le_refl _
  | _ :: _, 0 => Nat.le_refl _
  | _ :: cs, r + 1 => Nat.le_succ_of_le (cyclePass_snd_le cs r)

theorem cycleDistrib_zero (counts : List ℕ) : cycleDistrib counts 0 = counts := by
  simp only [cycleDistrib]

theorem cycleDistrib_step (counts : List ℕ) (rem : ℕ) (h1 : counts ≠ []) (h2 : rem ≠ 0) :
    cycleDistrib counts rem =
      cycleDistrib (cyclePass counts rem).1 (cyclePass counts rem).2 := by
  obtain ⟨r, rfl⟩ : ∃ r, rem = r + 1 := ⟨rem - 1, by omega⟩
  obtain ⟨c, cs, rfl⟩ : ∃ c cs, counts = c :: cs := by
    cases counts with
    | nil => exact absurd rfl h1
    | cons c cs => exact ⟨c, cs, rfl⟩
  simp only [cycleDistrib]
  rw [if_neg (by simp)]
  have hle : (cyclePass (c :: cs) (r + 1)).2 ≤ r := by
    simp only [cyclePass]
    exact cyclePass_snd_le cs r
  rw [min_eq_left hle]

theorem cyclePass_length : ∀ (l : List ℕ) (r : ℕ), (cyclePass l r).1.length = l.length
  | [], _ => rfl
  | _ :: _, 0 => rfl
  | _ :: cs, r + 1 => by simp [cyclePass, cyclePass_length cs r]

theorem cyclePass_sum :
    ∀ (l : List ℕ) (r : ℕ), (cyclePass l r).1.sum + (cyclePass l r).2 = l.sum + r
  | [], _ => by simp [cyclePass]
  | _ :: _, 0 => by simp [cyclePass]
  | c :: cs, r + 1 => by
    have h := cyclePass_sum cs r
    simp [cyclePass]
    omega

theorem cyclePass_snd :
    ∀ (l : List ℕ) (r : ℕ), (cyclePass l r).2 = r - min r l.length
  | [], r => by simp [cyclePass]
  | _ :: _, 0 => by simp [cyclePass]
  | c :: cs, r + 1 => by
    have h := cyclePass_snd cs r
    simp [cyclePass, h]
    omega

theorem cycleDistrib_length (counts : List ℕ) (rem : ℕ) :
    (cycleDistrib counts rem).length = counts.length := by
  by_cases h : counts = [] ∨ rem = 0
  · rcases h with h | h
    · subst h
      cases rem with
      | zero => rw [cycleDistrib_zero]
      | succ r => simp [cycleDistrib]
    · subst h
      rw [cycleDistrib_zero]
  · push_neg at h
    rw [cycleDistrib_step _ _ h.1 h.2]
    have hlt : (cyclePass counts rem).2 < rem := by
      have := cyclePass_snd counts rem
      have : counts.length ≠ 0 := by simpa [List.length_eq_zero] using h.1
      omega
    rw [cycleDistrib_length (cyclePass counts rem).1 (cyclePass counts rem).2,
      cyclePass_length]
termination_by rem

theorem charListLe_refl : ∀ a : List Char, charListLe a a = true
  | [] => rfl
  | c :: cs => by simp [charListLe, charListLe_refl cs]

theorem charListLe_total : ∀ a b : List Char, charListLe a b = true ∨ charListLe b a = true
  | [], _ => Or.inl rfl
  | _ :: _, [] => Or.inr rfl
  | a :: as, b :: bs => by
    rcases lt_trichotomy a b with h | h | h
    · left
      simp [charListLe, h]
    · subst h
      rcases charListLe_total as bs with h' | h' <;> [left; right] <;>
        simp [charListLe, h', lt_irrefl]
    · right
      simp [charListLe, h]

theorem charListLe_antisymm :
    ∀ a b : List Char, charListLe a b = true → charListLe b a = true → a = b
  | [], [], _, _ => rfl
  | [], _ :: _, _, h => by simp [charListLe] at h
  | _ :: _, [], h, _ => by simp [charListLe] at h
  | a :: as, b :: bs, h1, h2 => by
    rcases lt_trichotomy a b with h | h | h
    · simp [charListLe, h, asymm h] at h2
    · subst h
      simp only [charListLe, lt_irrefl, if_false] at h1 h2
      rw [charListLe_antisymm as bs h1 h2]
    · simp [charListLe, h, asymm h] at h1

theorem charListLe_trans :
    ∀ a b c : List Char, charListLe a b = true → charListLe b c = true →
      charListLe a c = true
  | [], _, _, _, _ => rfl
  | _ :: _, [], _, h, _ => by simp [charListLe] at h
  | _ :: _, _ :: _, [], _, h => by simp [charListLe] at h
  | a :: as, b :: bs, c :: cs, h1, h2 => by
    rcases lt_trichotomy a b with hab | hab | hab
    · rcases lt_trichotomy b c with hbc | hbc | hbc
      · simp [charListLe, lt_trans hab hbc]
      · subst hbc
        simp [charListLe, hab]
      · simp [charListLe, hbc, asymm hbc] at h2
    · subst hab
      rcases lt_trichotomy a c with hbc | hbc | hbc
      · simp [charListLe, hbc]
      · subst hbc
        simp only [charListLe, lt_irrefl, if_false] at h1 h2 ⊢
        exact charListLe_trans as bs cs h1 h2
      · simp [charListLe, hbc, asymm hbc] at h2
    · simp [charListLe, hab, asymm hab] at h1

theorem stringLe_refl (a : String) : stringLe a a = true := charListLe_refl a.data

theorem stringLe_total (a b : String) : stringLe a b = true ∨ stringLe b a = true :=
  charListLe_total a.data b.data

theorem stringLe_antisymm {a b : String} (h1 : stringLe a b = true)
    (h2 : stringLe b a = true) : a = b := by
  cases a
  cases b
  exact congrArg String.mk (charListLe_antisymm _ _ h1 h2)

theorem stringLe_trans {a b c : String} (h1 : stringLe a b = true)
    (h2 : stringLe b c = true) : stringLe a c = true :=
  charListLe_trans a.data b.data c.data h1 h2

theorem mem_jsSetAdd {s : List String} {d x : String} :
    x ∈ jsSetAdd s d ↔ x ∈ s ∨ x = d := by
  unfold jsSetAdd
  split
  · rename_i h
    constructor
    · exact Or.inl
    · rintro (hx | rfl)
      · exact hx
      · exact h
  · simp

theorem nodup_jsSetAdd {s : List String} {d : String} (h : s.Nodup) :
    (jsSetAdd s d).Nodup := by
  unfold jsSetAdd
  split
  · exact h
  · rename_i hd
    simp [List.nodup_append, h, hd]

theorem mem_foldl_jsSetAdd :
    ∀ (l : List String) (s : List String) (x : String),
      x ∈ l.foldl jsSetAdd s ↔ x ∈ s ∨ x ∈ l
  | [], s, x => by simp
  | d :: ds, s, x => by
    rw [List.foldl_cons, mem_foldl_jsSetAdd ds (jsSetAdd s d) x, mem_jsSetAdd]
    simp only [List.mem_cons]
    tauto

theorem nodup_foldl_jsSetAdd :
    ∀ (l : List String) (s : List String), s.Nodup → (l.foldl jsSetAdd s).Nodup
  | [], _, h => h
  | d :: ds, s, h => by
    rw [List.foldl_cons]
    exact nodup_foldl_jsSetAdd ds (jsSetAdd s d) (nodup_jsSetAdd h)

theorem mem_dateSetFold :
    ∀ (series : List (List String)) (s : List String) (x : String),
      x ∈ series.foldl (fun s l => l.foldl jsSetAdd s) s ↔ x ∈ s ∨ ∃ l ∈ series, x ∈ l
  | [], s, x => by simp
  | l :: ls, s, x => by
    rw [List.foldl_cons, mem_dateSetFold ls (l.foldl jsSetAdd s) x,
      mem_foldl_jsSetAdd]
    simp only [List.mem_cons]
    constructor
    · rintro ((h | h) | ⟨w, hw, hx⟩)
      · exact Or.inl h
      · exact Or.inr ⟨l, Or.inl rfl, h⟩
      · exact Or.inr ⟨w, Or.inr hw, hx⟩
    · rintro (h | ⟨w, rfl | hw, hx⟩)
      · exact Or.inl (Or.inl h)
      · exact Or.inl (Or.inr hx)
      · exact Or.inr ⟨w, hw, hx⟩

theorem nodup_dateSetFold :
    ∀ (series : List (List String)) (s : List String), s.Nodup →
      (series.foldl (fun s l => l.foldl jsSetAdd s) s).Nodup
  | [], _, h => h
  | l :: ls, s, h => by
    rw [List.foldl_cons]
    exact nodup_dateSetFold ls _ (nodup_foldl_jsSetAdd l s h)

theorem cycleDistrib_sum (counts : List ℕ) (rem : ℕ) (h : counts ≠ []) :
    (cycleDistrib counts rem).sum = counts.sum + rem := by
  by_cases h0 : rem = 0
  · subst h0
    simp [cycleDistrib_zero]
  · rw [cycleDistrib_step _ _ h h0]
    have hlt : (cyclePass counts rem).2 < rem := by
      have := cyclePass_snd counts rem
      have : counts.length ≠ 0 := by simpa [List.length_eq_zero] using h
      omega
    have hne : (cyclePass counts rem).1 ≠ [] := by
      have hl := cyclePass_length counts rem
      intro hc
      rw [hc] at hl
      simp only [List.length_nil] at hl
      exact h (List.length_eq_zero.mp hl.symm)
    rw [cycleDistrib_sum (cyclePass counts rem).1 (cyclePass counts rem).2 hne]
    have := cyclePass_sum counts rem
    omega
termination_by rem

/-! ## Claim C5 — risk-bucket label normalization -/

/-- C5 (amended): `normalizeBucket` lower-cases and trims the label and
matches it by prefix/substring against low/medium/high (plus the empty and
`"unknown"`-containing cases); whenever some branch of the cascade fires, the
result is one of `low`, `medium`, `high`, `unknown` — but a non-empty label
matching nothing falls through as the trimmed lower-cased label itself, not
as `"unknown"`. -/
theorem normalizeBucket_spec (b : Option String) :
    (bucketMatched (jsToLower (jsTrim (b.getD ""))) →
      normalizeBucket b ∈ (["low", "medium", "high", "unknown"] : List String)) ∧
    (¬ bucketMatched (jsToLower (jsTrim (b.getD ""))) →
      normalizeBucket b = jsToLower (jsTrim (b.getD ""))) := by
  constructor
  · intro hm
    dsimp only [normalizeBucket]
    split_ifs with h1 h2 h3 h4 h5 h6 h7 h8 <;> try simp
    exfalso
    simp only [Bool.or_eq_true, not_or] at h6
    unfold bucketMatched at hm
    rcases hm with h | h | h | h | h | h | h | h | h <;> simp_all
  · intro hm
    dsimp only [normalizeBucket]
    unfold bucketMatched at hm
    push_neg at hm
    obtain ⟨hm1, hm2, hm3, hm4, hm5, hm6, hm7, hm8, hm9⟩ := hm
    simp [hm1, hm2, hm3, hm4, hm5, hm6, hm7, hm8, hm9]

/-- C5 witness: the label `"balanced"` matches nothing and passes through
unchanged (in particular it is not `"unknown"`). -/
theorem normalizeBucket_spec_witness :
    normalizeBucket (some "balanced") = jsToLower (jsTrim ((some "balanced").getD "")) :=
  (normalizeBucket_spec (some "balanced")).2 (by decide)

/-- C5 counterexample: `"Aggressive"` matches none of low/medium/high, yet it
normalizes to `"aggressive"`, not `"unknown"` — the normalized result is not
always one of the four buckets. -/
theorem normalizeBucket_counterexample :
    normalizeBucket (some "Aggressive") = "aggressive" ∧
      ("aggressive" : String) ∉ (["low", "medium", "high", "unknown"] : List String) := by
  decide

/-! ## Claim C3 — Portfolio Index Builder null conditions -/

/-- C3 (amended): the `portfolio` memo returns `null` exactly when the series
list is empty (in particular when the portfolio holds only tickers missing
from the loaded dataset) or when the summed weight of the present tickers is
not positive.  It does *not* return `null` merely because fewer than 2 time
points exist in the window. -/
theorem portfolioIndex_none_iff (weights : List (String × ℚ))
    (series : List (String × List (Option ℚ))) (n : ℕ) :
    portfolioIndex weights series n = none ↔
      series = [] ∨ presentWeightSum weights series ≤ 0 := by
  unfold portfolioIndex
  split_ifs with h1 hw <;> simp_all

/-- C3 counterexample: a dataset with exactly one usable time point and one
present, fully-weighted ticker yields the one-point array `[100]`, not
`null` — refuting "null whenever fewer than 2 usable time points exist". -/
theorem portfolioIndex_counterexample :
    portfolioIndex [("A", 1)] [("A", [some 100])] 1 = some [100] := by
  simp [portfolioIndex, presentWeightSum, wmapGet, jsToUpper, jsCharUpper,
    List.find?, List.range, List.range.loop]

/-! ## Claim C9 — Range Windower fallbacks -/

theorem lastIndices_length (len n : ℕ) : (lastIndices len n).length = n := by
  simp [lastIndices]

/-- C9: for a calendar with at least 2 entries the windower never returns
fewer than 2 indices; if no date parses, it takes the last
`min(len, k)` indices with `k = 2`/`6`/the full calendar for `1D`/`5D`/other
keys; if the dated selection has fewer than 2 indices, it widens to the last
`min(len, k)` indices with `k = 2`/`6`/`12`. -/
theorem indicesForRange_spec (parse : String → Option ℤ)
    (rangeStartF : RangeKey → ℤ → Option ℤ) (dates : List String) (key : RangeKey)
    (hlen : 2 ≤ dates.length) :
    2 ≤ (indicesForRange parse rangeStartF dates key).length ∧
    (tsOf parse dates = [] →
      indicesForRange parse rangeStartF dates key =
        lastIndices dates.length (min dates.length (ordinalFallbackK key dates.length))) ∧
    (tsOf parse dates ≠ [] → (datedSelection parse rangeStartF dates key).length < 2 →
      indicesForRange parse rangeStartF dates key =
        lastIndices dates.length (min dates.length (minViableK key))) := by
  have hne : dates ≠ [] := by
    intro h
    rw [h] at hlen
    simp at hlen
  have hord : 2 ≤ min dates.length (ordinalFallbackK key dates.length) := by
    cases key <;> simp [ordinalFallbackK] <;> omega
  have hmin : 2 ≤ min dates.length (minViableK key) := by
    cases key <;> simp [minViableK] <;> omega
  unfold indicesForRange
  by_cases hts : tsOf parse dates = []
  · refine ⟨?_, fun _ => ?_, fun h => absurd hts h⟩
    · simp [hne, hts, lastIndices_length, hord]
    · simp [hne, hts]
  · by_cases hsel : (datedSelection parse rangeStartF dates key).length < 2
    · refine ⟨?_, fun h => absurd h hts, fun _ _ => ?_⟩
      · simp [hne, hts, hsel, hlen, lastIndices_length, hmin]
      · simp [hne, hts, hsel, hlen]
    · refine ⟨?_, fun h => absurd h hts, fun _ h => absurd h hsel⟩
      simp only [hne, hts, if_false]
      have : ¬((datedSelection parse rangeStartF dates key).length < 2 ∧
          2 ≤ dates.length) := fun h => hsel h.1
      simp [this]
      omega

/-- C9 witness: with a calendar of two unparseable labels and the `ALL` key,
the windower still returns at least 2 indices. -/
theorem indicesForRange_spec_witness :
    2 ≤ (indicesForRange (fun _ => none) (fun _ _ => none) ["x", "y"] RangeKey.all).length :=
  (indicesForRange_spec (fun _ => none) (fun _ _ => none) ["x", "y"] RangeKey.all
    (by norm_num)).1

/-! ## Claim C2 — the `{AAPL:1, MSFT:1}` percent-edit scenario -/

/-- C2 (amended): setting AAPL's target percent to 75 on `{AAPL:1, MSFT:1}`
gives AAPL `ceil(0.75*2) = 2` shares clamped to the total, leaving
`remaining = 2 - 2 = 0` shares for MSFT: the final holdings are
`{AAPL:2, MSFT:0}` (the total is conserved at 2). -/
theorem setPct_scenario3 :
    setPctAndRebalance [⟨"AAPL", 1⟩, ⟨"MSFT", 1⟩] "AAPL" 75 =
      [⟨"AAPL", 2⟩, ⟨"MSFT", 0⟩] := by
  have hceil : ⌈((100 : ℚ) ⊓ 75) / 100 * 2⌉ = 2 := by norm_num [Int.ceil_eq_iff]
  simp [setPctAndRebalance, pctRebalanceAux, sumShares, hceil, shareRemOf,
    remainderAlloc, allocFind, cycleDistrib_zero]

/-- C2 counterexample: the final holdings are not `{AAPL:2, MSFT:1}` as the
claim states (that would raise the total from 2 to 3); MSFT ends with 0. -/
theorem setPct_scenario3_counterexample :
    setPctAndRebalance [⟨"AAPL", 1⟩, ⟨"MSFT", 1⟩] "AAPL" 75 ≠
      [⟨"AAPL", 2⟩, ⟨"MSFT", 1⟩] := by
  have hceil : ⌈((100 : ℚ) ⊓ 75) / 100 * 2⌉ = 2 := by norm_num [Int.ceil_eq_iff]
  simp [setPctAndRebalance, pctRebalanceAux, sumShares, hceil, shareRemOf,
    remainderAlloc, allocFind, cycleDistrib_zero]

/-! ## Claim C7 — Calendar Builder -/

theorem stringLe_bool_total (a b : String) : stringLe a b || stringLe b a := by
  rcases stringLe_total a b with h | h <;> simp [h]

theorem unionSortedDates_sorted (series : List (List String)) :
    (unionSortedDates series).Pairwise (fun a b => stringLe a b = true) := by
  unfold unionSortedDates
  apply List.sorted_mergeSort
  · exact fun a b c h1 h2 => stringLe_trans h1 h2
  · exact stringLe_bool_total

theorem unionSortedDates_nodup (series : List (List String)) :
    (unionSortedDates series).Nodup :=
  ((List.mergeSort_perm _ _).nodup_iff).mpr
    (nodup_dateSetFold series [] List.nodup_nil)

theorem mem_unionSortedDates (series : List (List String)) (d : String) :
    d ∈ unionSortedDates series ↔ ∃ l ∈ series, d ∈ l := by
  unfold unionSortedDates
  rw [List.mem_mergeSort, mem_dateSetFold]
  simp

/-- C7: the calendar builder returns a `localeCompare`-sorted, deduplicated
list containing exactly the union of the input series' date keys; the result
is invariant under permutation of the input series (so `[A, B]` and `[B, A]`
agree), deterministic, and empty on empty input. -/
theorem unionSortedDates_spec :
    (∀ series : List (List String),
      (unionSortedDates series).Pairwise (fun a b => stringLe a b = true) ∧
      (unionSortedDates series).Nodup ∧
      (∀ d, d ∈ unionSortedDates series ↔ ∃ l ∈ series, d ∈ l)) ∧
    (∀ series series' : List (List String), series.Perm series' →
      unionSortedDates series = unionSortedDates series') ∧
    unionSortedDates [] = [] := by
  refine ⟨fun series => ⟨unionSortedDates_sorted series, unionSortedDates_nodup series,
    mem_unionSortedDates series⟩, fun s1 s2 hp => ?_, by simp [unionSortedDates]⟩
  have hmem : ∀ d, d ∈ unionSortedDates s1 ↔ d ∈ unionSortedDates s2 := by
    intro d
    rw [mem_unionSortedDates, mem_unionSortedDates]
    constructor
    · rintro ⟨l, hl, hd⟩
      exact ⟨l, hp.mem_iff.mp hl, hd⟩
    · rintro ⟨l, hl, hd⟩
      exact ⟨l, hp.mem_iff.mpr hl, hd⟩
  exact List.Perm.eq_of_sorted
    (fun a b _ _ h1 h2 => stringLe_antisymm h1 h2)
    (unionSortedDates_sorted s1) (unionSortedDates_sorted s2)
    ((List.perm_ext_iff_of_nodup (unionSortedDates_nodup s1)
      (unionSortedDates_nodup s2)).mpr hmem)

/-- C7 witness: `[A, B]` and `[B, A]` give the same calendar for two concrete
series. -/
theorem unionSortedDates_spec_witness :
    unionSortedDates [["b", "a"], ["c"]] = unionSortedDates [["c"], ["b", "a"]] :=
  unionSortedDates_spec.2.1 [["b", "a"], ["c"]] [["c"], ["b", "a"]]
    (List.Perm.swap _ _ _)

/-! ## Claim C8 — Forward-fill idempotence -/

theorem forwardFillGo_congr {m1 m2 : String → Option ℚ} :
    ∀ (cal : List String) (last : Option ℚ), (∀ d ∈ cal, m1 d = m2 d) →
      forwardFillGo m1 last cal = forwardFillGo m2 last cal
  | [], _, _ => rfl
  | d :: ds, last, h => by
    have hd : m1 d = m2 d := h d (List.mem_cons_self _ _)
    simp only [forwardFillGo, hd]
    rw [forwardFillGo_congr ds _ (fun e he => h e (List.mem_cons_of_mem _ he))]

theorem feedBack_head {d : String} {ds : List String} {v : Option ℚ}
    {vs : List (Option ℚ)} (hd : d ∉ ds) :
    feedBack (d :: ds) (v :: vs) d = v := by
  unfold feedBack
  simp only [List.zip_cons_cons, List.reverse_cons, List.find?_append]
  have hnone : (ds.zip vs).reverse.find? (fun p => decide (p.1 = d)) = none := by
    rw [List.find?_eq_none]
    rintro ⟨a, b⟩ hx
    have ha : a ∈ ds := (List.of_mem_zip (List.mem_reverse.mp hx)).1
    simp only [decide_eq_true_eq]
    rintro rfl
    exact hd ha
  rw [hnone]
  simp

theorem feedBack_ne {d e : String} {ds : List String} {v : Option ℚ}
    {vs : List (Option ℚ)} (h : e ≠ d) :
    feedBack (d :: ds) (v :: vs) e = feedBack ds vs e := by
  unfold feedBack
  simp only [List.zip_cons_cons, List.reverse_cons, List.find?_append]
  have : List.find? (fun p => decide (p.1 = e)) [(d, v)] = none := by
    simp [Ne.symm h]
  rw [this]
  simp

theorem forwardFillGo_feedBack (m : String → Option ℚ) :
    ∀ (cal : List String) (last : Option ℚ), cal.Nodup →
      forwardFillGo (feedBack cal (forwardFillGo m last cal)) last cal =
        forwardFillGo m last cal
  | [], _, _ => rfl
  | d :: ds, last, hnd => by
    have hd : d ∉ ds := (List.nodup_cons.mp hnd).1
    have hnd' : ds.Nodup := (List.nodup_cons.mp hnd).2
    simp only [forwardFillGo]
    have hhead :
        feedBack (d :: ds)
          ((if (m d).isSome then m d else last) :: forwardFillGo m
            (if (m d).isSome then m d else last) ds) d =
          if (m d).isSome then m d else last := feedBack_head hd
    rw [hhead]
    have hlast :
        (if (if (m d).isSome then m d else last).isSome then
          (if (m d).isSome then m d else last) else last) =
        (if (m d).isSome then m d else last) := by
      by_cases h : (m d).isSome
      · simp [h]
      · simp [h]
    rw [hlast]
    refine congrArg _ ?_
    have hne : ∀ e ∈ ds, e ≠ d := fun e he hde => hd (hde ▸ he)
    rw [forwardFillGo_congr ds (if (m d).isSome then m d else last)
      (fun e he => feedBack_ne (hne e he))]
    exact forwardFillGo_feedBack m ds (if (m d).isSome then m d else last) hnd'

/-- C8: forward-fill alignment is idempotent — aligning an already-aligned
series onto the same (duplicate-free) calendar, feeding each calendar date's
finite value back in as the observation map, reproduces the series. -/
theorem forwardFill_idempotent (cal : List String) (m : String → Option ℚ)
    (hnd : cal.Nodup) :
    forwardFillSeries cal (feedBack cal (forwardFillSeries cal m)) =
      forwardFillSeries cal m :=
  forwardFillGo_feedBack m cal none hnd

/-- C8 witness: idempotence at a concrete calendar and observation map. -/
theorem forwardFill_idempotent_witness :
    forwardFillSeries ["a", "b"]
      (feedBack ["a", "b"]
        (forwardFillSeries ["a", "b"] (fun d => if d = "a" then some 1 else none))) =
      forwardFillSeries ["a", "b"] (fun d => if d = "a" then some 1 else none) :=
  forwardFill_idempotent ["a", "b"] (fun d => if d = "a" then some 1 else none)
    (by decide)

/-! ## Claim C10 — Forward-fill characterization -/

theorem forwardFillGo_length (m : String → Option ℚ) :
    ∀ (cal : List String) (last : Option ℚ),
      (forwardFillGo m last cal).length = cal.length
  | [], _ => rfl
  | _ :: ds, last => by
    simp only [forwardFillGo, List.length_cons]
    rw [forwardFillGo_length m ds _]

theorem lastKnownFrom_nil (m : String → Option ℚ) (last : Option ℚ) :
    lastKnownFrom m last [] = last := rfl

theorem lastKnownFrom_cons (m : String → Option ℚ) (last : Option ℚ) (d : String)
    (l : List String) :
    lastKnownFrom m last (d :: l) =
      lastKnownFrom m (if (m d).isSome then m d else last) l := rfl

theorem lastKnownFrom_append (m : String → Option ℚ) (last : Option ℚ)
    (l : List String) (d : String) :
    lastKnownFrom m last (l ++ [d]) =
      if (m d).isSome then m d else lastKnownFrom m last l := by
  unfold lastKnownFrom
  rw [List.foldl_append]
  rfl

theorem forwardFillGo_getD (m : String → Option ℚ) :
    ∀ (cal : List String) (last : Option ℚ) (i : ℕ), i < cal.length →
      (forwardFillGo m last cal).getD i none = lastKnownFrom m last (cal.take (i + 1))
  | [], _, i, hi => absurd hi (by simp)
  | d :: ds, last, 0, _ => by
    simp [forwardFillGo, lastKnownFrom]
  | d :: ds, last, i + 1, hi => by
    simp only [forwardFillGo, List.take_succ_cons, lastKnownFrom_cons, List.getD_cons_succ]
    exact forwardFillGo_getD m ds _ i (by simpa using hi)

theorem lastKnownFrom_none_iff (m : String → Option ℚ) :
    ∀ (l : List String) (last : Option ℚ),
      lastKnownFrom m last l = none ↔ (last = none ∧ ∀ d ∈ l, m d = none)
  | [], last => by simp [lastKnownFrom_nil]
  | d :: l, last => by
    rw [lastKnownFrom_cons, lastKnownFrom_none_iff m l _]
    by_cases h : (m d).isSome
    · rcases Option.isSome_iff_exists.mp h with ⟨w, hw⟩
      simp [hw]
    · rw [Option.not_isSome_iff_eq_none] at h
      simp only [h, Option.isSome_none, Bool.false_eq_true, if_false, List.mem_cons]
      constructor
      · rintro ⟨h1, h2⟩
        refine ⟨h1, fun e he => ?_⟩
        rcases he with rfl | he
        · exact h
        · exact h2 e he
      · rintro ⟨h1, h2⟩
        exact ⟨h1, fun e he => h2 e (Or.inr he)⟩

theorem lastKnownFrom_some_split (m : String → Option ℚ) (v : ℚ) (l : List String) :
    lastKnownFrom m none l = some v →
      ∃ l₁ d l₂, l = l₁ ++ d :: l₂ ∧ m d = some v ∧ ∀ e ∈ l₂, m e = none := by
  induction l using List.reverseRecOn with
  | nil => simp [lastKnownFrom_nil]
  | append_singleton l d ih =>
    rw [lastKnownFrom_append]
    by_cases h : (m d).isSome
    · simp only [h, if_true]
      intro hv
      exact ⟨l, d, [], rfl, hv, by simp⟩
    · rw [Option.not_isSome_iff_eq_none] at h
      simp only [h, Option.isSome_none, Bool.false_eq_true, if_false]
      intro hv
      obtain ⟨l₁, e, l₂, rfl, he, hl₂⟩ := ih hv
      refine ⟨l₁, e, l₂ ++ [d], by simp, he, fun x hx => ?_⟩
      rcases List.mem_append.mp hx with hx | hx
      · exact hl₂ x hx
      · rw [List.mem_singleton.mp hx]
        exact h

/-- C10: the forward-fill aligner returns one value per calendar date;
position `i` is `NaN` (≙ `none`) exactly when no calendar date at or before
index `i` carries a finite observation (so head gaps are never back-filled),
and otherwise holds the observation of the greatest such date (the calendar
being sorted and duplicate-free). -/
theorem forwardFillSeries_spec (cal : List String) (m : String → Option ℚ)
    (hs : cal.Pairwise (fun a b => stringLe a b = true ∧ a ≠ b)) :
    (forwardFillSeries cal m).length = cal.length ∧
    ∀ i, i < cal.length →
      ((forwardFillSeries cal m).getD i none = none ↔
        ∀ d ∈ cal.take (i + 1), m d = none) ∧
      (∀ v : ℚ, (forwardFillSeries cal m).getD i none = some v →
        ∃ d ∈ cal.take (i + 1), m d = some v ∧
          ∀ e ∈ cal.take (i + 1), (m e).isSome → stringLe e d = true) := by
  refine ⟨forwardFillGo_length m cal none, fun i hi => ?_⟩
  rw [forwardFillSeries, forwardFillGo_getD m cal none i hi]
  constructor
  · rw [lastKnownFrom_none_iff]
    simp
  · intro v hv
    obtain ⟨l₁, d, l₂, hsplit, hd, hl₂⟩ := lastKnownFrom_some_split m v _ hv
    have hptake : (cal.take (i + 1)).Pairwise (fun a b => stringLe a b = true ∧ a ≠ b) :=
      hs.sublist (List.take_sublist _ _)
    rw [hsplit] at hptake ⊢
    refine ⟨d, by simp, hd, fun e he hsome => ?_⟩
    rcases List.mem_append.mp he with he1 | he2
    · exact ((List.pairwise_append.mp hptake).2.2 e he1 d (List.mem_cons_self _ _)).1
    · rcases List.mem_cons.mp he2 with rfl | he3
      · exact stringLe_refl e
      · rw [hl₂ e he3] at hsome
        simp at hsome

/-- C10 witness: on the two-day calendar with no observations at all, the
first aligned position is `NaN` (`none`). -/
theorem forwardFillSeries_spec_witness :
    (forwardFillSeries ["a", "b"] (fun _ => none)).getD 0 none = none :=
  ((forwardFillSeries_spec ["a", "b"] (fun _ => none) (by decide)).2 0
    (by norm_num)).1.mpr (by simp)

/-! ## Claim C4 — KPI calculator -/

theorem ddStep_peak_eq_max (p x : ℚ) : (if x > p then x else p) = max p x := by
  rcases le_or_lt x p with h | h
  · simp [not_lt.mpr h, max_eq_left h]
  · simp [h, max_eq_right (le_of_lt h)]

theorem ddStep_snd_le (st : ℚ × ℚ) (v : ℚ) : (ddStep st v).2 ≤ st.2 := by
  unfold ddStep
  dsimp only
  by_cases h :
      (if (if v > st.1 then v else st.1) > 0 then v / (if v > st.1 then v else st.1) - 1
        else 0) < st.2
  · rw [if_pos h]
    exact le_of_lt h
  · rw [if_neg h]

theorem fold_dd_le :
    ∀ (l : List ℚ) (p m : ℚ), (l.foldl ddStep (p, m)).2 ≤ m
  | [], _, _ => le_refl _
  | x :: xs, p, m => by
    rw [List.foldl_cons]
    have h2 := ddStep_snd_le (p, m) x
    calc (xs.foldl ddStep (ddStep (p, m) x)).2
        ≤ (ddStep (p, m) x).2 := by
          rw [show ddStep (p, m) x = ((ddStep (p, m) x).1, (ddStep (p, m) x).2) from rfl]
          exact fold_dd_le xs _ _
      _ ≤ m := h2

theorem fold_dd_iff :
    ∀ (l : List ℚ) (p m : ℚ), 0 < p → m ≤ 0 →
      ((l.foldl ddStep (p, m)).2 = 0 ↔ (m = 0 ∧ ¬ dipsBelowPeak p l))
  | [], p, m, _, _ => by simp [dipsBelowPeak]
  | x :: xs, p, m, hp, hm => by
    rw [List.foldl_cons]
    have hpeak : (if x > p then x else p) = max p x := ddStep_peak_eq_max p x
    have hpos : (0 : ℚ) < max p x := lt_of_lt_of_le hp (le_max_left _ _)
    rcases lt_or_le x p with hxp | hxp
    · -- the point dips below the running peak: drawdown goes (and stays) negative
      have hmax : max p x = p := max_eq_left (le_of_lt hxp)
      have hdd : (if (0:ℚ) < max p x then x / max p x - 1 else 0) = x / p - 1 := by
        rw [hmax]
        simp [hp]
      have hddneg : x / p - 1 < 0 := by
        rw [sub_neg]
        exact (div_lt_one hp).mpr hxp
      have hstate : (ddStep (p, m) x).2 < 0 := by
        simp only [ddStep, hpeak, hdd]
        split_ifs with h
        · exact hddneg
        · exact lt_of_le_of_lt (not_lt.mp h) hddneg
      have hres : (xs.foldl ddStep (ddStep (p, m) x)).2 < 0 := by
        have := fold_dd_le xs (ddStep (p, m) x).1 (ddStep (p, m) x).2
        calc (xs.foldl ddStep (ddStep (p, m) x)).2 ≤ (ddStep (p, m) x).2 := this
        _ < 0 := hstate
      constructor
      · intro h
        rw [h] at hres
        exact absurd hres (lt_irrefl 0)
      · rintro ⟨_, hnd⟩
        exact absurd (Or.inl hxp) hnd
    · -- the point is a (weak) new peak: drawdown here is 0 and the state keeps m
      have hmax : max p x = x := max_eq_right hxp
      have hx0 : (0:ℚ) < x := lt_of_lt_of_le hp hxp
      have hdd : (if (0:ℚ) < max p x then x / max p x - 1 else 0) = 0 := by
        rw [hmax]
        simp [hx0, div_self (ne_of_gt hx0)]
      have hstep : ddStep (p, m) x = (max p x, m) := by
        simp only [ddStep, hpeak, hdd]
        congr 1
        split_ifs with h
        · exact absurd hm (not_le.mpr h)
        · rfl
      rw [hstep]
      rw [fold_dd_iff xs (max p x) m hpos hm]
      simp only [dipsBelowPeak, not_or]
      constructor
      · rintro ⟨h1, h2⟩
        exact ⟨h1, not_lt.mpr hxp, h2⟩
      · rintro ⟨h1, _, h3⟩
        exact ⟨h1, h3⟩

/-- C4 (amended): with fewer than 2 points (values or dates) the KPI is the
zero triple; otherwise `totalReturn = last/first - 1` (`0` when
`first <= 0`), and `maxDrawdown` — the most negative running-peak drawdown,
each drawdown taken as `0` when the running peak is not positive — is always
`<= 0`, and *when the first value is positive* it is `0` exactly when no
point lies below its running peak.  (For series whose values make every
running peak non-positive the drawdown is clamped to `0` even below the
peak, which is what the counterexample exhibits.) -/
theorem kpisFromIndex_spec (dateMs : String → ℚ) (powf : ℚ → ℚ → ℚ)
    (series : List ℚ) (dates : List String) :
    ((series.length < 2 ∨ dates.length < 2) →
      kpisFromIndex dateMs powf series dates = ⟨0, 0, 0⟩) ∧
    (2 ≤ series.length → 2 ≤ dates.length →
      (kpisFromIndex dateMs powf series dates).totalReturn =
        (if series.getD 0 0 > 0 then
          series.getD (series.length - 1) 0 / series.getD 0 0 - 1 else 0) ∧
      (kpisFromIndex dateMs powf series dates).maxDrawdown ≤ 0 ∧
      (0 < series.getD 0 0 →
        ((kpisFromIndex dateMs powf series dates).maxDrawdown = 0 ↔
          ¬ dipsBelowPeak (series.getD 0 0) series))) := by
  constructor
  · intro h
    unfold kpisFromIndex
    rw [if_pos h]
  · intro h1 h2
    have hcond : ¬(series.length < 2 ∨ dates.length < 2) := by omega
    unfold kpisFromIndex
    rw [if_neg hcond]
    refine ⟨rfl, fold_dd_le series _ _, fun hpos => ?_⟩
    exact fold_dd_iff series (series.getD 0 0) 0 hpos (le_refl 0) |>.trans
      (by simp)

/-- C4 witness: on the series `[100, 90]` the computed maximum drawdown is
nonpositive. -/
theorem kpisFromIndex_spec_witness :
    (kpisFromIndex (fun _ => 0) (fun _ _ => 0) [100, 90] ["a", "b"]).maxDrawdown ≤ 0 :=
  ((kpisFromIndex_spec (fun _ => 0) (fun _ _ => 0) [100, 90] ["a", "b"]).2
    (by norm_num) (by norm_num)).2.1

/-- C4 counterexample: on the all-negative series `[-1, -2]` the second point
lies below its running peak (`-2 < -1`), yet `maxDrawdown` is `0` because
every running peak is non-positive — refuting "equals 0 exactly when no
point is below its running peak" as stated for every series. -/
theorem kpisFromIndex_counterexample :
    (kpisFromIndex (fun _ => 0) (fun _ _ => 0) [-1, -2] ["a", "b"]).maxDrawdown = 0 ∧
      dipsBelowPeak (-1) [-1, -2] := by
  constructor
  · have hcond : ¬((([-1, -2] : List ℚ).length < 2) ∨ ((["a", "b"] : List String).length < 2)) := by
      norm_num
    unfold kpisFromIndex
    rw [if_neg hcond]
    norm_num [ddStep]
  · unfold dipsBelowPeak
    norm_num
    unfold dipsBelowPeak
    norm_num

/-! ## Claim C6 — largest-remainder tie-breaking in the percent edit -/

theorem pctPosLe_eq_enumLE : pctPosLe = List.enumLE pctLe := by
  funext p q
  unfold pctPosLe List.enumLE pctLe
  rcases lt_trichotomy p.2.frac q.2.frac with h | h | h
  · simp [not_le.mpr h, asymm h, ne_of_lt h, le_of_lt h]
  · simp [h]
  · simp [not_le.mpr h, asymm h, le_of_lt h, (ne_of_lt h).symm, h]

/-- C6 (amended): in the percent-edit rebalancing the leftover units are
distributed one-by-one to the other tickers in order of largest fractional
remainder, with ties between equal remainders broken by the tickers'
*original array position* (the JS sort is stable and its comparator uses only
the fraction) — not by ascending ticker name.  The code is extensionally the
variant whose sort key is (fraction descending, position ascending). -/
theorem setPct_tie_by_position (prev : List Holding) (ticker : String) (pctTarget : ℚ) :
    setPctAndRebalance prev ticker pctTarget =
      setPctAndRebalancePosTie prev ticker pctTarget := by
  unfold setPctAndRebalance setPctAndRebalancePosTie
  have hs : (fun raw : List ShareRem => raw.mergeSort pctLe) =
      (fun raw : List ShareRem => (raw.enum.mergeSort pctPosLe).map (fun p => p.2)) := by
    funext raw
    rw [pctPosLe_eq_enumLE]
    exact (List.mergeSort_enum).symm
  rw [hs]

/-- C6 counterexample: with holdings `[T:0, ZZ:1, AA:1]` and the percent edit
`T := 25%`, one leftover unit is contested by ZZ and AA at equal fractional
remainder `1/2`.  The code (stable sort, array order) gives it to ZZ; the
claimed ascending-ticker-name tie-break would give it to AA.  The two
allocations differ. -/
theorem setPct_tiebreak_counterexample :
    setPctAndRebalance [⟨"T", 0⟩, ⟨"ZZ", 1⟩, ⟨"AA", 1⟩] "T" 25 =
      [⟨"T", 1⟩, ⟨"ZZ", 1⟩, ⟨"AA", 0⟩] ∧
    setPctAndRebalanceNameTie [⟨"T", 0⟩, ⟨"ZZ", 1⟩, ⟨"AA", 1⟩] "T" 25 =
      [⟨"T", 1⟩, ⟨"ZZ", 0⟩, ⟨"AA", 1⟩] ∧
    setPctAndRebalance [⟨"T", 0⟩, ⟨"ZZ", 1⟩, ⟨"AA", 1⟩] "T" 25 ≠
      setPctAndRebalanceNameTie [⟨"T", 0⟩, ⟨"ZZ", 1⟩, ⟨"AA", 1⟩] "T" 25 := by
  have hceil : ⌈((100 : ℚ) ⊓ 25) / 100 * 2⌉ = 1 := by norm_num [Int.ceil_eq_iff]
  have hfloor : ⌊(2⁻¹ : ℚ)⌋ = 0 := by norm_num [Int.floor_eq_iff]
  have hzz : stringLe "ZZ" "AA" = false := by decide
  have hcd : cycleDistrib [0, 0] 1 = [1, 0] := by
    rw [cycleDistrib_step _ _ (by simp) (by simp)]
    simp [cyclePass, cycleDistrib_zero]
  have h1 : setPctAndRebalance [⟨"T", 0⟩, ⟨"ZZ", 1⟩, ⟨"AA", 1⟩] "T" 25 =
      [⟨"T", 1⟩, ⟨"ZZ", 1⟩, ⟨"AA", 0⟩] := by
    simp [setPctAndRebalance, pctRebalanceAux, sumShares, hceil, hfloor, hcd,
      shareRemOf, remainderAlloc, allocFind, pctLe, mergeSort_pair, List.find?]
  have h2 : setPctAndRebalanceNameTie [⟨"T", 0⟩, ⟨"ZZ", 1⟩, ⟨"AA", 1⟩] "T" 25 =
      [⟨"T", 1⟩, ⟨"ZZ", 0⟩, ⟨"AA", 1⟩] := by
    simp [setPctAndRebalanceNameTie, pctRebalanceAux, sumShares, hceil, hfloor, hcd,
      hzz, shareRemOf, remainderAlloc, allocFind, totalLe, mergeSort_pair, List.find?]
  refine ⟨h1, h2, ?_⟩
  rw [h1, h2]
  decide

/-! ## Claim C1 — reconciler conservation and nonnegativity: helper lemmas -/

theorem sum_floor_le_aux (c T : ℤ) :
    ∀ l : List ℤ,
      (((l.map (fun s : ℤ => ⌊((s : ℚ) / (c : ℚ)) * (T : ℚ)⌋)).sum : ℤ) : ℚ) ≤
        (l.map (fun s : ℤ => ((s : ℚ) / (c : ℚ)) * (T : ℚ))).sum
  | [] => by simp
  | x :: xs => by
    simp only [List.map_cons, List.sum_cons]
    push_cast
    exact add_le_add (Int.floor_le _) (by exact_mod_cast sum_floor_le_aux c T xs)

theorem sum_exact_eq (c T : ℤ) :
    ∀ l : List ℤ,
      (l.map (fun s : ℤ => ((s : ℚ) / (c : ℚ)) * (T : ℚ))).sum =
        ((l.sum : ℤ) : ℚ) / (c : ℚ) * (T : ℚ)
  | [] => by simp
  | x :: xs => by
    simp only [List.map_cons, List.sum_cons, sum_exact_eq c T xs]
    push_cast
    ring

theorem sum_floor_le (l : List ℤ) (c T : ℤ) (hc : 0 < c) (hsum : l.sum = c) :
    (l.map (fun s : ℤ => ⌊((s : ℚ) / (c : ℚ)) * (T : ℚ)⌋)).sum ≤ T := by
  have hcne : (c : ℚ) ≠ 0 := Int.cast_ne_zero.mpr (ne_of_gt hc)
  have key :
      (((l.map (fun s : ℤ => ⌊((s : ℚ) / (c : ℚ)) * (T : ℚ)⌋)).sum : ℤ) : ℚ) ≤ (T : ℚ) := by
    refine le_trans (sum_floor_le_aux c T l) (le_of_eq ?_)
    rw [sum_exact_eq c T l, hsum]
    field_simp
  exact_mod_cast key

theorem find?_split {α : Type} (p : α → Bool) :
    ∀ (l : List α) (e : α), l.find? p = some e →
      ∃ l₁ l₂, l = l₁ ++ e :: l₂ ∧ ∀ x ∈ l₁, ¬(p x = true)
  | [], e, h => by simp at h
  | a :: l, e, h => by
    by_cases hp : p a
    · rw [List.find?_cons_of_pos _ hp] at h
      obtain rfl := Option.some_injective _ h
      exact ⟨[], l, rfl, by simp⟩
    · rw [List.find?_cons_of_neg _ hp] at h
      obtain ⟨l₁, l₂, rfl, hl₁⟩ := find?_split p l e h
      refine ⟨a :: l₁, l₂, rfl, fun x hx => ?_⟩
      rcases List.mem_cons.mp hx with rfl | hx
      · exact hp
      · exact hl₁ x hx

theorem allocFind_in_middle (l₁ l₂ : List (String × ℤ)) (t : String) (v : ℤ)
    (h : ∀ x ∈ l₁, ¬(x.1 = t)) :
    allocFind (l₁ ++ (t, v) :: l₂) t = some v := by
  unfold allocFind
  rw [List.find?_append]
  have h1 : l₁.find? (fun p => decide (p.1 = t)) = none := by
    rw [List.find?_eq_none]
    intro x hx
    simpa using h x hx
  rw [h1]
  simp

theorem allocFind_skip (l₁ l₂ : List (String × ℤ)) (t s : String) (v : ℤ)
    (h : t ≠ s) :
    allocFind (l₁ ++ (t, v) :: l₂) s = allocFind (l₁ ++ l₂) s := by
  unfold allocFind
  rw [List.find?_append, List.find?_append]
  have : List.find? (fun p => decide (p.1 = s)) ((t, v) :: l₂) =
      List.find? (fun p => decide (p.1 = s)) l₂ :=
    List.find?_cons_of_neg _ (by simpa using h)
  rw [this]

theorem lookup_vals_perm :
    ∀ (ts : List String) (alloc : List (String × ℤ)), ts.Nodup →
      (alloc.map Prod.fst).Perm ts →
      (ts.map (fun t => (allocFind alloc t).getD 0)).Perm (alloc.map Prod.snd)
  | [], alloc, _, hperm => by
    have h0 : alloc.map Prod.fst = [] := List.Perm.eq_nil hperm
    have h1 : alloc = [] := by simpa using h0
    simp [h1]
  | t :: ts, alloc, hnd, hperm => by
    have hmemt : t ∈ alloc.map Prod.fst := hperm.mem_iff.mpr (List.mem_cons_self _ _)
    have hsome : (alloc.find? (fun p => decide (p.1 = t))).isSome := by
      rw [List.find?_isSome]
      obtain ⟨x, hx, hxt⟩ := List.mem_map.mp hmemt
      exact ⟨x, hx, by simp [hxt]⟩
    obtain ⟨e, he⟩ := Option.isSome_iff_exists.mp hsome
    have het : e.1 = t := by simpa using List.find?_some he
    obtain ⟨l₁, l₂, hsplit, hl₁⟩ := find?_split _ alloc e he
    have hval : allocFind alloc t = some e.2 := by
      unfold allocFind
      rw [he]
      rfl
    have hkeysperm : ((l₁ ++ l₂).map Prod.fst).Perm ts := by
      have h1 : (alloc.map Prod.fst).Perm (e.1 :: (l₁ ++ l₂).map Prod.fst) := by
        rw [hsplit]
        simp only [List.map_append, List.map_cons]
        have hmid : List.Perm (l₁.map Prod.fst ++ e.1 :: l₂.map Prod.fst)
            (e.1 :: (l₁.map Prod.fst ++ l₂.map Prod.fst)) := List.perm_middle
        simpa using hmid
      have h2 : (e.1 :: (l₁ ++ l₂).map Prod.fst).Perm (t :: ts) := h1.symm.trans hperm
      rw [het] at h2
      exact h2.cons_inv
    have hndts : ts.Nodup := (List.nodup_cons.mp hnd).2
    have htnots : t ∉ ts := (List.nodup_cons.mp hnd).1
    have hcongr : ts.map (fun s => (allocFind alloc s).getD 0) =
        ts.map (fun s => (allocFind (l₁ ++ l₂) s).getD 0) := by
      apply List.map_congr_left
      intro s hs
      have hst : e.1 ≠ s := by
        rw [het]
        exact fun hts => htnots (hts ▸ hs)
      calc (allocFind alloc s).getD 0
          = (allocFind (l₁ ++ (e.1, e.2) :: l₂) s).getD 0 := by rw [← hsplit]
        _ = (allocFind (l₁ ++ l₂) s).getD 0 := by rw [allocFind_skip l₁ l₂ e.1 s e.2 hst]
    have ih := lookup_vals_perm ts (l₁ ++ l₂) hndts hkeysperm
    have hvalsperm : (alloc.map Prod.snd).Perm (e.2 :: (l₁ ++ l₂).map Prod.snd) := by
      rw [hsplit]
      simp only [List.map_append, List.map_cons]
      have hmid : List.Perm (l₁.map Prod.snd ++ e.2 :: l₂.map Prod.snd)
          (e.2 :: (l₁.map Prod.snd ++ l₂.map Prod.snd)) := List.perm_middle
      simpa using hmid
    rw [List.map_cons, hval, hcongr]
    refine List.Perm.trans ?_ hvalsperm.symm
    simp only [Option.getD_some]
    exact ih.cons e.2

theorem zipRem_keys :
    ∀ (l : List ShareRem) (m : List ℕ), l.length = m.length →
      ((l.zip m).map (fun p => (p.1.ticker, p.1.floorPart + (p.2 : ℤ)))).map Prod.fst =
        l.map (fun r => r.ticker)
  | [], [], _ => rfl
  | [], _ :: _, h => by simp at h
  | _ :: _, [], h => by simp at h
  | r :: l, c :: m, h => by
    simp only [List.zip_cons_cons, List.map_cons, List.cons.injEq]
    exact ⟨trivial, zipRem_keys l m (by simpa using h)⟩

theorem zipRem_sum :
    ∀ (l : List ShareRem) (m : List ℕ), l.length = m.length →
      (((l.zip m).map (fun p => (p.1.ticker, p.1.floorPart + (p.2 : ℤ)))).map Prod.snd).sum =
        (l.map (fun r => r.floorPart)).sum + (m.sum : ℤ)
  | [], [], _ => rfl
  | [], _ :: _, h => by simp at h
  | _ :: _, [], h => by simp at h
  | r :: l, c :: m, h => by
    simp only [List.zip_cons_cons, List.map_cons, List.sum_cons,
      zipRem_sum l m (by simpa using h)]
    push_cast
    ring

theorem zipRem_nonneg :
    ∀ (l : List ShareRem) (m : List ℕ), (∀ r ∈ l, 0 ≤ r.floorPart) →
      ∀ v ∈ (((l.zip m).map
        (fun p => (p.1.ticker, p.1.floorPart + (p.2 : ℤ)))).map Prod.snd), 0 ≤ v
  | [], _, _ => by simp
  | _ :: _, [], _ => by simp
  | r :: l, c :: m, hfl => by
    simp only [List.zip_cons_cons, List.map_cons, List.mem_cons]
    rintro v (rfl | hv)
    · have hr : 0 ≤ r.floorPart := hfl r (List.mem_cons_self _ _)
      omega
    · exact zipRem_nonneg l m (fun x hx => hfl x (List.mem_cons_of_mem _ hx)) v hv

theorem remainderAlloc_keys (total : ℤ) (sorted : List ShareRem) :
    (remainderAlloc total sorted).map Prod.fst = sorted.map (fun r => r.ticker) := by
  unfold remainderAlloc
  exact zipRem_keys sorted _ (by rw [cycleDistrib_length, List.length_replicate])

theorem remainderAlloc_sum (total : ℤ) (sorted : List ShareRem) (hne : sorted ≠ [])
    (hle : (sorted.map (fun r => r.floorPart)).sum ≤ total) :
    ((remainderAlloc total sorted).map Prod.snd).sum = total := by
  unfold remainderAlloc
  rw [zipRem_sum sorted _ (by rw [cycleDistrib_length, List.length_replicate])]
  rw [cycleDistrib_sum _ _ (by
    intro hrep
    have := congrArg List.length hrep
    simp [List.length_eq_zero] at this
    exact hne this)]
  simp only [List.sum_replicate, smul_eq_mul, mul_zero, zero_add]
  rw [Int.toNat_of_nonneg (by omega)]
  omega

theorem remainderAlloc_nonneg (total : ℤ) (sorted : List ShareRem)
    (hfl : ∀ r ∈ sorted, 0 ≤ r.floorPart) :
    ∀ v ∈ (remainderAlloc total sorted).map Prod.snd, 0 ≤ v := by
  unfold remainderAlloc
  exact zipRem_nonneg sorted _ hfl

theorem zipEven_keys (base : ℤ) :
    ∀ (l : List Holding) (m : List ℕ), l.length = m.length →
      ((l.zip m).map (fun p => (p.1.ticker, base + (p.2 : ℤ)))).map Prod.fst =
        l.map (fun h => h.ticker)
  | [], [], _ => rfl
  | [], _ :: _, h => by simp at h
  | _ :: _, [], h => by simp at h
  | r :: l, c :: m, h => by
    simp only [List.zip_cons_cons, List.map_cons, List.cons.injEq]
    exact ⟨trivial, zipEven_keys base l m (by simpa using h)⟩

theorem zipEven_sum (base : ℤ) :
    ∀ (l : List Holding) (m : List ℕ), l.length = m.length →
      (((l.zip m).map (fun p => (p.1.ticker, base + (p.2 : ℤ)))).map Prod.snd).sum =
        base * (l.length : ℤ) + (m.sum : ℤ)
  | [], [], _ => by simp
  | [], _ :: _, h => by simp at h
  | _ :: _, [], h => by simp at h
  | r :: l, c :: m, h => by
    simp only [List.zip_cons_cons, List.map_cons, List.sum_cons,
      zipEven_sum base l m (by simpa using h), List.length_cons]
    push_cast
    ring

theorem zipEven_nonneg (base : ℤ) (hb : 0 ≤ base) :
    ∀ (l : List Holding) (m : List ℕ),
      ∀ v ∈ (((l.zip m).map (fun p => (p.1.ticker, base + (p.2 : ℤ)))).map Prod.snd), 0 ≤ v
  | [], _ => by simp
  | _ :: _, [] => by simp
  | r :: l, c :: m => by
    simp only [List.zip_cons_cons, List.map_cons, List.mem_cons]
    rintro v (rfl | hv)
    · omega
    · exact zipEven_nonneg base hb l m v hv

theorem evenAlloc_keys (total : ℤ) (ordered : List Holding) :
    (evenAlloc total ordered).map Prod.fst = ordered.map (fun h => h.ticker) := by
  unfold evenAlloc
  exact zipEven_keys _ ordered _ (by rw [cyclePass_length, List.length_replicate])

theorem evenBase_bounds (total : ℤ) (n : ℕ) (hn : 0 < n) :
    ⌊(total : ℚ) / (n : ℚ)⌋ * (n : ℤ) ≤ total ∧
      total < (⌊(total : ℚ) / (n : ℚ)⌋ + 1) * (n : ℤ) := by
  have hnq : (0 : ℚ) < (n : ℚ) := by exact_mod_cast hn
  have h1 : ((⌊(total : ℚ) / (n : ℚ)⌋ : ℤ) : ℚ) ≤ (total : ℚ) / (n : ℚ) := Int.floor_le _
  have h2 : (total : ℚ) / (n : ℚ) < (⌊(total : ℚ) / (n : ℚ)⌋ : ℚ) + 1 :=
    Int.lt_floor_add_one _
  constructor
  · have := (le_div_iff₀ hnq).mp h1
    exact_mod_cast this
  · have := (div_lt_iff₀ hnq).mp h2
    have hcast : (total : ℚ) < ((⌊(total : ℚ) / (n : ℚ)⌋ + 1 : ℤ) : ℚ) * ((n : ℤ) : ℚ) := by
      push_cast
      convert this using 2
    exact_mod_cast hcast

theorem evenAlloc_sum (total : ℤ) (ordered : List Holding) (hne : ordered ≠ []) :
    ((evenAlloc total ordered).map Prod.snd).sum = total := by
  unfold evenAlloc
  have hn : 0 < ordered.length := List.length_pos.mpr hne
  obtain ⟨hb1, hb2⟩ := evenBase_bounds total ordered.length hn
  set base := ⌊(total : ℚ) / (ordered.length : ℚ)⌋ with hbase
  set rem : ℤ := total - base * ordered.length with hrem
  have hrem0 : 0 ≤ rem := by omega
  have hremn : rem < ordered.length := by
    have : (base + 1) * (ordered.length : ℤ) = base * ordered.length + ordered.length := by
      ring
    omega
  rw [zipEven_sum _ ordered _ (by rw [cyclePass_length, List.length_replicate])]
  have hsnd : (cyclePass (List.replicate ordered.length 0) rem.toNat).2 = 0 := by
    rw [cyclePass_snd, List.length_replicate]
    have : rem.toNat ≤ ordered.length := by omega
    omega
  have hsum := cyclePass_sum (List.replicate ordered.length 0) rem.toNat
  rw [hsnd] at hsum
  simp only [List.sum_replicate, smul_eq_mul, mul_zero, zero_add, add_zero] at hsum
  rw [hsum]
  rw [Int.toNat_of_nonneg hrem0]
  omega

theorem evenAlloc_nonneg (total : ℤ) (ordered : List Holding) (ht : 0 ≤ total) :
    ∀ v ∈ (evenAlloc total ordered).map Prod.snd, 0 ≤ v := by
  unfold evenAlloc
  have hb : 0 ≤ ⌊(total : ℚ) / (ordered.length : ℚ)⌋ :=
    Int.floor_nonneg.mpr (div_nonneg (by exact_mod_cast ht) (by positivity))
  exact zipEven_nonneg _ hb ordered _

theorem sumShares_map_set (prev : List Holding) (f : Holding → ℤ) :
    sumShares (prev.map (fun x => { x with shares := f x })) = (prev.map f).sum := by
  unfold sumShares
  rw [List.map_map]
  rfl

theorem sum_map_ite_ticker :
    ∀ (prev : List Holding) (t : String) (A : ℤ) (g : Holding → ℤ),
      (prev.map (fun h => h.ticker)).Nodup → t ∈ prev.map (fun h => h.ticker) →
      (prev.map (fun x => if x.ticker = t then A else g x)).sum =
        A + ((prev.filter (fun x => x.ticker ≠ t)).map g).sum
  | [], t, A, g, _, hmem => by simp at hmem
  | x :: prev, t, A, g, hnd, hmem => by
    simp only [List.map_cons, List.nodup_cons] at hnd
    by_cases hx : x.ticker = t
    · have hnott : ∀ y ∈ prev, y.ticker ≠ t := by
        intro y hy hyt
        exact hnd.1 (by
          rw [hx, ← hyt]
          exact List.mem_map_of_mem _ hy)
      have hmap : prev.map (fun y => if y.ticker = t then A else g y) = prev.map g :=
        List.map_congr_left (fun y hy => if_neg (hnott y hy))
      have hfilter : prev.filter (fun y => y.ticker ≠ t) = prev :=
        List.filter_eq_self.mpr (fun y hy => by simpa using hnott y hy)
      rw [List.map_cons, List.sum_cons, if_pos hx, hmap,
        List.filter_cons_of_neg (by simpa using hx), hfilter]
    · have hmem' : t ∈ prev.map (fun h => h.ticker) := by
        rcases List.mem_cons.mp hmem with h | h
        · exact absurd h.symm hx
        · exact h
      rw [List.map_cons, List.sum_cons, if_neg hx,
        sum_map_ite_ticker prev t A g hnd.2 hmem',
        List.filter_cons_of_pos (by simpa using hx), List.map_cons, List.sum_cons]
      ring

theorem filter_map_ticker (prev : List Holding) (t : String) :
    (prev.filter (fun x => x.ticker ≠ t)).map (fun h => h.ticker) =
      (prev.map (fun h => h.ticker)).filter (fun s => s ≠ t) := by
  induction prev with
  | nil => rfl
  | cons x prev ih =>
    by_cases hx : x.ticker = t
    · rw [List.filter_cons_of_neg (by simpa using hx), List.map_cons,
        List.filter_cons_of_neg (by simpa using hx), ih]
    · rw [List.filter_cons_of_pos (by simpa using hx), List.map_cons, List.map_cons,
        List.filter_cons_of_pos (by simpa using hx), ih]

theorem setShares_spec (prev : List Holding) (t : String) (q : ℚ)
    (hnd : (prev.map (fun h => h.ticker)).Nodup)
    (hmem : t ∈ prev.map (fun h => h.ticker))
    (hpos : ∀ h ∈ prev, 0 ≤ h.shares) :
    sumShares (setShares prev t q) =
      max 0 (jsRound q) + sumShares (prev.filter (fun x => x.ticker ≠ t)) ∧
    ∀ h ∈ setShares prev t q, 0 ≤ h.shares := by
  constructor
  · unfold setShares sumShares
    dsimp only
    rw [List.map_map]
    have hcomp : ((fun h : Holding => h.shares) ∘
        (fun x : Holding => if x.ticker = t then { x with shares := max 0 (jsRound q) }
          else x)) =
        (fun x : Holding => if x.ticker = t then max 0 (jsRound q) else x.shares) := by
      funext y
      by_cases h : y.ticker = t <;> simp [Function.comp, h]
    rw [hcomp, sum_map_ite_ticker prev t _ _ hnd hmem]
  · intro h hh
    unfold setShares at hh
    dsimp only at hh
    obtain ⟨x, hx, hxe⟩ := List.mem_map.mp hh
    by_cases hxt : x.ticker = t
    · rw [if_pos hxt] at hxe
      rw [← hxe]
      exact le_max_left _ _
    · rw [if_neg hxt] at hxe
      rw [← hxe]
      exact hpos x hx

theorem setTotal_spec (prev : List Holding) (T : ℚ) (hne : prev ≠ [])
    (hnd : (prev.map (fun h => h.ticker)).Nodup)
    (hpos : ∀ h ∈ prev, 0 ≤ h.shares) :
    sumShares (setTotalSharesAndRescale prev T) = max 0 (jsRound T) ∧
    ∀ h ∈ setTotalSharesAndRescale prev T, 0 ≤ h.shares := by
  have hT0 : (0 : ℤ) ≤ max 0 (jsRound T) := le_max_left _ _
  unfold setTotalSharesAndRescale
  simp only [if_neg hne]
  by_cases hcur : sumShares prev ≤ 0
  · -- even-split branch
    simp only [if_pos hcur]
    set alloc := evenAlloc (max 0 (jsRound T)) (prev.mergeSort tickerLe) with halloc
    have hordne : prev.mergeSort tickerLe ≠ [] := by
      intro h
      have := congrArg List.length h
      simp only [List.length_mergeSort, List.length_nil] at this
      exact hne (List.length_eq_zero.mp this)
    have hkeys : (alloc.map Prod.fst).Perm (prev.map (fun h => h.ticker)) := by
      rw [halloc, evenAlloc_keys]
      exact (List.mergeSort_perm prev tickerLe).map _
    have hperm := lookup_vals_perm (prev.map (fun h => h.ticker)) alloc hnd hkeys
    constructor
    · rw [sumShares_map_set]
      have : prev.map (fun x => (allocFind alloc x.ticker).getD 0) =
          (prev.map (fun h => h.ticker)).map (fun s => (allocFind alloc s).getD 0) := by
        rw [List.map_map]
        rfl
      rw [this, hperm.sum_eq, halloc, evenAlloc_sum _ _ hordne]
    · intro h hh
      obtain ⟨x, hx, hxe⟩ := List.mem_map.mp hh
      rw [← hxe]
      have hmemv : (allocFind alloc x.ticker).getD 0 ∈ alloc.map Prod.snd := by
        refine hperm.mem_iff.mp ?_
        exact List.mem_map_of_mem _ (List.mem_map_of_mem _ hx)
      exact evenAlloc_nonneg _ _ hT0 _ hmemv
  · -- proportional branch
    simp only [if_neg hcur]
    have hcurpos : 0 < sumShares prev := lt_of_not_le hcur
    set sorted := ((prev.map (shareRemOf (sumShares prev) (max 0 (jsRound T)))).mergeSort
      totalLe) with hsorted
    set alloc := remainderAlloc (max 0 (jsRound T)) sorted with halloc
    have hsortperm : sorted.Perm (prev.map (shareRemOf (sumShares prev) (max 0 (jsRound T)))) :=
      List.mergeSort_perm _ _
    have htick : ∀ (c T' : ℤ) (x : Holding), (shareRemOf c T' x).ticker = x.ticker :=
      fun _ _ _ => rfl
    have hkeys : (alloc.map Prod.fst).Perm (prev.map (fun h => h.ticker)) := by
      rw [halloc, remainderAlloc_keys]
      refine (hsortperm.map _).trans ?_
      rw [List.map_map]
      exact List.Perm.refl _
    have hfloorsum : (sorted.map (fun r => r.floorPart)).sum ≤ max 0 (jsRound T) := by
      rw [(hsortperm.map (fun r => r.floorPart)).sum_eq, List.map_map]
      have : ((fun r : ShareRem => r.floorPart) ∘
          shareRemOf (sumShares prev) (max 0 (jsRound T))) =
          (fun x : Holding =>
            ⌊((x.shares : ℚ) / ((sumShares prev : ℤ) : ℚ)) * (((max 0 (jsRound T) : ℤ)) : ℚ)⌋) :=
        rfl
      rw [this]
      have hms : prev.map (fun x : Holding =>
          ⌊((x.shares : ℚ) / ((sumShares prev : ℤ) : ℚ)) * (((max 0 (jsRound T) : ℤ)) : ℚ)⌋) =
          (prev.map (fun h => h.shares)).map
            (fun s : ℤ =>
              ⌊((s : ℚ) / ((sumShares prev : ℤ) : ℚ)) * (((max 0 (jsRound T) : ℤ)) : ℚ)⌋) := by
        rw [List.map_map]
        rfl
      rw [hms]
      exact sum_floor_le _ _ _ hcurpos rfl
    have hsortne : sorted ≠ [] := by
      intro h
      have := congrArg List.length h
      rw [hsorted] at this
      simp only [List.length_mergeSort, List.length_map, List.length_nil] at this
      exact hne (List.length_eq_zero.mp this)
    have hfloornn : ∀ r ∈ sorted, 0 ≤ r.floorPart := by
      intro r hr
      have hr' : r ∈ prev.map (shareRemOf (sumShares prev) (max 0 (jsRound T))) :=
        hsortperm.mem_iff.mp hr
      obtain ⟨x, hx, rfl⟩ := List.mem_map.mp hr'
      unfold shareRemOf
      dsimp only
      apply Int.floor_nonneg.mpr
      apply mul_nonneg
      · apply div_nonneg
        · exact_mod_cast hpos x hx
        · exact_mod_cast le_of_lt hcurpos
      · exact_mod_cast hT0
    have hperm := lookup_vals_perm (prev.map (fun h => h.ticker)) alloc hnd hkeys
    constructor
    · rw [sumShares_map_set]
      have : prev.map (fun x => (allocFind alloc x.ticker).getD 0) =
          (prev.map (fun h => h.ticker)).map (fun s => (allocFind alloc s).getD 0) := by
        rw [List.map_map]
        rfl
      rw [this, hperm.sum_eq, halloc, remainderAlloc_sum _ _ hsortne hfloorsum]
    · intro h hh
      obtain ⟨x, hx, hxe⟩ := List.mem_map.mp hh
      rw [← hxe]
      have hmemv : (allocFind alloc x.ticker).getD 0 ∈ alloc.map Prod.snd := by
        refine hperm.mem_iff.mp ?_
        exact List.mem_map_of_mem _ (List.mem_map_of_mem _ hx)
      exact remainderAlloc_nonneg _ _ hfloornn _ hmemv

theorem allocFind_isSome (alloc : List (String × ℤ)) (t : String)
    (h : t ∈ alloc.map Prod.fst) : (allocFind alloc t).isSome := by
  unfold allocFind
  cases he : alloc.find? (fun p => decide (p.1 = t)) with
  | none =>
    exfalso
    obtain ⟨x, hx, hxt⟩ := List.mem_map.mp h
    have := List.find?_eq_none.mp he x hx
    simp [hxt] at this
  | some e => simp

theorem allocFind_some_mem (alloc : List (String × ℤ)) (t : String) (v : ℤ)
    (h : allocFind alloc t = some v) : v ∈ alloc.map Prod.snd := by
  unfold allocFind at h
  cases he : alloc.find? (fun p => decide (p.1 = t)) with
  | none =>
    rw [he] at h
    exact absurd h (by simp)
  | some e =>
    rw [he] at h
    have hv : e.2 = v := by simpa using h
    rw [← hv]
    exact List.mem_map_of_mem _ (List.mem_of_find?_eq_some he)

theorem setPct_spec (prev : List Holding) (t : String) (pct : ℚ)
    (hnd : (prev.map (fun h => h.ticker)).Nodup)
    (hmem : t ∈ prev.map (fun h => h.ticker))
    (hlen : 2 ≤ prev.length)
    (hpos : ∀ h ∈ prev, 0 ≤ h.shares) :
    sumShares (setPctAndRebalance prev t pct) = max 1 (sumShares prev) ∧
    ∀ h ∈ setPctAndRebalance prev t pct, 0 ≤ h.shares := by
  have hne : prev ≠ [] := by
    intro h
    rw [h] at hlen
    simp at hlen
  -- the filtered "others" list is nonempty when there are >= 2 distinct tickers
  have hothersne : prev.filter (fun x => x.ticker ≠ t) ≠ [] := by
    intro hnil
    have hall : ∀ x ∈ prev, x.ticker = t := by
      intro x hx
      have := List.filter_eq_nil_iff.mp hnil x hx
      simpa using this
    have hcnt : (prev.map (fun h => h.ticker)).count t = (prev.map (fun h => h.ticker)).length := by
      rw [List.count_eq_length]
      intro s hs
      obtain ⟨x, hx, rfl⟩ := List.mem_map.mp hs
      exact (hall x hx).symm
    have hle1 : (prev.map (fun h => h.ticker)).count t ≤ 1 :=
      List.nodup_iff_count_le_one.mp hnd t
    rw [List.length_map] at hcnt
    omega
  have htot1 : (1 : ℤ) ≤ max 1 (sumShares prev) := le_max_left _ _
  have hq0 : (0 : ℚ) ≤ min 100 (max 0 pct) / 100 * ((max 1 (sumShares prev) : ℤ) : ℚ) := by
    apply mul_nonneg
    · apply div_nonneg _ (by norm_num)
      exact le_min (by norm_num) (le_max_left 0 pct)
    · exact_mod_cast le_trans zero_le_one htot1
  have hdes0 : 0 ≤ min ⌈min 100 (max 0 pct) / 100 * ((max 1 (sumShares prev) : ℤ) : ℚ)⌉
      (max 1 (sumShares prev)) :=
    le_min (Int.ceil_nonneg hq0) (by omega)
  have hdesle : min ⌈min 100 (max 0 pct) / 100 * ((max 1 (sumShares prev) : ℤ) : ℚ)⌉
      (max 1 (sumShares prev)) ≤ max 1 (sumShares prev) := min_le_right _ _
  have hndothers : ((prev.filter (fun x => x.ticker ≠ t)).map (fun h => h.ticker)).Nodup := by
    rw [filter_map_ticker]
    exact hnd.filter _
  unfold setPctAndRebalance pctRebalanceAux
  rw [if_neg hne]
  dsimp only
  rw [if_neg hothersne]
  set total : ℤ := max 1 (sumShares prev) with htotal
  set desired : ℤ := min ⌈min 100 (max 0 pct) / 100 * (total : ℚ)⌉ total with hdesired
  set others : List Holding := prev.filter (fun x => x.ticker ≠ t) with hothers
  set alloc : List (String × ℤ) :=
    if sumShares others ≤ 0 then
      evenAlloc (total - desired) (others.mergeSort tickerLe)
    else
      remainderAlloc (total - desired)
        ((others.map (shareRemOf (sumShares others) (total - desired))).mergeSort pctLe)
    with halloc
  have hrem0 : 0 ≤ total - desired := by omega
  -- alloc facts, uniform over the two branches
  have hkeysperm : (alloc.map Prod.fst).Perm (others.map (fun h => h.ticker)) := by
    rw [halloc]
    by_cases hot : sumShares others ≤ 0
    · rw [if_pos hot, evenAlloc_keys]
      exact (List.mergeSort_perm others tickerLe).map _
    · rw [if_neg hot, remainderAlloc_keys]
      refine ((List.mergeSort_perm _ pctLe).map _).trans ?_
      rw [List.map_map]
      exact List.Perm.refl _
  have hvalsum : (alloc.map Prod.snd).sum = total - desired := by
    rw [halloc]
    by_cases hot : sumShares others ≤ 0
    · rw [if_pos hot]
      apply evenAlloc_sum
      intro h
      have := congrArg List.length h
      simp only [List.length_mergeSort, List.length_nil] at this
      exact hothersne (List.length_eq_zero.mp this)
    · rw [if_neg hot]
      apply remainderAlloc_sum
      · intro h
        have := congrArg List.length h
        simp only [List.length_mergeSort, List.length_map, List.length_nil] at this
        exact hothersne (List.length_eq_zero.mp this)
      · rw [((List.mergeSort_perm _ pctLe).map (fun r => r.floorPart)).sum_eq, List.map_map]
        have hc : ((fun r : ShareRem => r.floorPart) ∘
            shareRemOf (sumShares others) (total - desired)) =
            (fun x : Holding =>
              ⌊((x.shares : ℚ) / ((sumShares others : ℤ) : ℚ)) *
                (((total - desired : ℤ)) : ℚ)⌋) := rfl
        rw [hc]
        have hms : others.map (fun x : Holding =>
            ⌊((x.shares : ℚ) / ((sumShares others : ℤ) : ℚ)) *
              (((total - desired : ℤ)) : ℚ)⌋) =
            (others.map (fun h => h.shares)).map
              (fun s : ℤ =>
                ⌊((s : ℚ) / ((sumShares others : ℤ) : ℚ)) *
                  (((total - desired : ℤ)) : ℚ)⌋) := by
          rw [List.map_map]
          rfl
        rw [hms]
        exact sum_floor_le _ _ _ (lt_of_not_le hot) rfl
  have hvalnn : ∀ v ∈ alloc.map Prod.snd, 0 ≤ v := by
    rw [halloc]
    by_cases hot : sumShares others ≤ 0
    · rw [if_pos hot]
      exact evenAlloc_nonneg _ _ hrem0
    · rw [if_neg hot]
      apply remainderAlloc_nonneg
      intro r hr
      have hr' : r ∈ others.map (shareRemOf (sumShares others) (total - desired)) :=
        (List.mergeSort_perm _ pctLe).mem_iff.mp hr
      obtain ⟨x, hx, rfl⟩ := List.mem_map.mp hr'
      unfold shareRemOf
      dsimp only
      apply Int.floor_nonneg.mpr
      apply mul_nonneg
      · apply div_nonneg
        · exact_mod_cast hpos x (List.mem_of_mem_filter hx)
        · exact_mod_cast le_of_lt (lt_of_not_le hot)
      · exact_mod_cast hrem0
  -- rewrite each element into the "record with replaced shares" shape
  have hbody : ∀ x ∈ prev,
      (if x.ticker = t then { x with shares := desired }
        else match allocFind alloc x.ticker with
          | some s => { x with shares := s }
          | none => x) =
      { x with shares :=
          if x.ticker = t then desired else (allocFind alloc x.ticker).getD x.shares } := by
    intro x _
    by_cases hx : x.ticker = t
    · simp [hx]
    · simp only [if_neg hx]
      cases h : allocFind alloc x.ticker with
      | none => simp
      | some s => simp
  rw [List.map_congr_left hbody]
  constructor
  · rw [sumShares_map_set, sum_map_ite_ticker prev t _ _ hnd hmem]
    have hcongr2 : (others.map (fun x => (allocFind alloc x.ticker).getD x.shares)) =
        others.map (fun x => (allocFind alloc x.ticker).getD 0) := by
      apply List.map_congr_left
      intro x hx
      have hkey : x.ticker ∈ alloc.map Prod.fst :=
        hkeysperm.mem_iff.mpr (List.mem_map_of_mem _ hx)
      obtain ⟨v, hv⟩ := Option.isSome_iff_exists.mp (allocFind_isSome alloc x.ticker hkey)
      rw [hv]
      rfl
    rw [← hothers, hcongr2]
    have hmm : others.map (fun x => (allocFind alloc x.ticker).getD 0) =
        (others.map (fun h => h.ticker)).map (fun s => (allocFind alloc s).getD 0) := by
      rw [List.map_map]
      rfl
    rw [hmm, (lookup_vals_perm (others.map (fun h => h.ticker)) alloc hndothers
      hkeysperm).sum_eq, hvalsum]
    omega
  · intro h hh
    obtain ⟨x, hx, hxe⟩ := List.mem_map.mp hh
    rw [← hxe]
    dsimp only
    by_cases hxt : x.ticker = t
    · rw [if_pos hxt]
      exact hdes0
    · rw [if_neg hxt]
      cases hv : allocFind alloc x.ticker with
      | none => exact hpos x hx
      | some v =>
        simp only [Option.getD_some]
        exact hvalnn v (allocFind_some_mem alloc x.ticker v hv)

/-- C1 (amended): for duplicate-free, nonnegative holdings, every
reconciliation edit conserves its intended integer total exactly and never
produces negative shares:
* setting one ticker's shares replaces it by `max 0 (round input)`, so the
  new total is that value plus the other holdings' total;
* setting one ticker's target percent conserves the total
  `max 1 (current total)` exactly — *provided the holdings contain at least
  two tickers* (with a single holding the edit just sets
  `min(ceil(pct/100*total), total)` shares, which can undershoot the current
  total, as the counterexample shows);
* setting a new grand total yields exactly `max 0 (round target)`. -/
theorem reconciler_spec :
    (∀ (prev : List Holding) (t : String) (q : ℚ),
      (prev.map (fun h => h.ticker)).Nodup → t ∈ prev.map (fun h => h.ticker) →
      (∀ h ∈ prev, 0 ≤ h.shares) →
      sumShares (setShares prev t q) =
        max 0 (jsRound q) + sumShares (prev.filter (fun x => x.ticker ≠ t)) ∧
      ∀ h ∈ setShares prev t q, 0 ≤ h.shares) ∧
    (∀ (prev : List Holding) (t : String) (pct : ℚ),
      (prev.map (fun h => h.ticker)).Nodup → t ∈ prev.map (fun h => h.ticker) →
      2 ≤ prev.length → (∀ h ∈ prev, 0 ≤ h.shares) →
      sumShares (setPctAndRebalance prev t pct) = max 1 (sumShares prev) ∧
      ∀ h ∈ setPctAndRebalance prev t pct, 0 ≤ h.shares) ∧
    (∀ (prev : List Holding) (T : ℚ), prev ≠ [] →
      (prev.map (fun h => h.ticker)).Nodup → (∀ h ∈ prev, 0 ≤ h.shares) →
      sumShares (setTotalSharesAndRescale prev T) = max 0 (jsRound T) ∧
      ∀ h ∈ setTotalSharesAndRescale prev T, 0 ≤ h.shares) :=
  ⟨setShares_spec, setPct_spec, setTotal_spec⟩

/-- C1 witness: a percent edit on a two-ticker holdings list conserves the
current total. -/
theorem reconciler_spec_witness :
    sumShares (setPctAndRebalance [⟨"A", 1⟩, ⟨"B", 3⟩] "A" 50) =
      max 1 (sumShares [⟨"A", 1⟩, ⟨"B", 3⟩]) :=
  (reconciler_spec.2.1 [⟨"A", 1⟩, ⟨"B", 3⟩] "A" 50 (by decide) (by decide)
    (by norm_num) (by decide)).1

/-- C1 counterexample: a percent edit on a *single*-ticker holdings list does
not conserve the total: `[A:4]` with `A := 50%` becomes `[A:2]` (sum 2), while
the pre-edit total — the intended target of a percent edit, which rebalances
without changing the total — is 4. -/
theorem setPct_singleHolding_counterexample :
    setPctAndRebalance [⟨"A", 4⟩] "A" 50 = [⟨"A", 2⟩] ∧
    sumShares (setPctAndRebalance [⟨"A", 4⟩] "A" 50) = 2 ∧
    sumShares [⟨"A", (4 : ℤ)⟩] = 4 := by
  have hceil : ⌈((100 : ℚ) ⊓ 50) / 100 * 4⌉ = 2 := by norm_num [Int.ceil_eq_iff]
  have h1 : setPctAndRebalance [⟨"A", 4⟩] "A" 50 = [⟨"A", 2⟩] := by
    simp [setPctAndRebalance, pctRebalanceAux, sumShares, hceil]
  refine ⟨h1, ?_, by simp [sumShares]⟩
  rw [h1]
  simp [sumShares]
